import Mathlib

/-!
Verification of the transaction-extraction and normalization pipeline of a
bank-statement converter.  The Python sources (`backend/transaction_processor.py`,
`backend/pdf_parser.py`, `backend/app.py`) are shallowly embedded below:
strings are Lean `String`s (manipulated as `List Char`), CPython `float`
values are modelled as exact rationals (`ℚ`), and every partial operation is
`Option`-valued.  Divergences of the rational model from IEEE doubles
(binary rounding of `f"{v:.2f}"`, precision loss above 2^53) do not affect
any of the stated properties, which only exercise values exactly
representable with two fraction digits.
-/

namespace BankConv

attribute [local semireducible] Rat.add Rat.mul Rat.inv

/-- ASCII whitespace, as matched by CPython's `str.strip()` and the regex
class `\s` (restricted to ASCII, which is all the pipeline feeds it). -/
def pyWs (c : Char) : Bool :=
  c == ' ' || c == '\t' || c == '\n' || c == '\r' || c == '\x0b' || c == '\x0c'

/-- `str.strip()`: drop ASCII whitespace from both ends. -/
def pyStrip (l : List Char) : List Char :=
  ((l.dropWhile pyWs).reverse.dropWhile pyWs).reverse

/-- ASCII decimal digit test (`\d`): code point between `'0'` (48) and
`'9'` (57). -/
def isDigitC (c : Char) : Bool := decide (48 ≤ c.toNat) && decide (c.toNat ≤ 57)

/-- Numeric value of an ASCII digit character. -/
def digitVal (c : Char) : Nat := c.toNat - 48

/-- Value of a big-endian list of decimal digit characters. -/
def natOfDigits (l : List Char) : Nat := l.foldl (fun a c => 10 * a + digitVal c) 0

/-- Fuel-driven decimal rendering of a natural number. -/
def natDigitsAux : Nat → Nat → List Char
  | 0, _ => []
  | f + 1, n => if n < 10 then [Nat.digitChar n]
                else natDigitsAux f (n / 10) ++ [Nat.digitChar (n % 10)]

/-- Decimal digit characters of `n`, most significant first (CPython `str(n)`). -/
def natDigits (n : Nat) : List Char := natDigitsAux (n + 1) n

/-- `"%02d"`-style rendering: `str(n).zfill(2)` for a numeric value. -/
def pad2 (n : Nat) : List Char := if n < 10 then ['0', Nat.digitChar n] else natDigits n

/-- `str.zfill(2)` on an already rendered string: left-pad with `'0'` to width 2. -/
def zfill2 (l : List Char) : List Char :=
  if l.length ≥ 2 then l else List.replicate (2 - l.length) '0' ++ l

/-- Split off the part of the mantissa after the first `'e'`/`'E'`. -/
def splitExp (l : List Char) : List Char × Option (List Char) :=
  match l.span (fun c => !(c == 'e' || c == 'E')) with
  | (m, []) => (m, none)
  | (m, _ :: ex) => (m, some ex)

/-- Parse an optional sign followed by a nonempty run of digits (regex `[+-]?\d+`). -/
def signedDigits? (l : List Char) : Option ℤ :=
  let (sgn, t) : ℤ × List Char := match l with
    | '-' :: r => (-1, r)
    | '+' :: r => (1, r)
    | r => (1, r)
  if t ≠ [] ∧ t.all isDigitC then some (sgn * natOfDigits t) else none

/-- Model of CPython `float(s)` restricted to finite decimal literals:
optional surrounding whitespace, optional sign, a mantissa of digits with at
most one `'.'` (and at least one digit), and an optional exponent.  The
`inf`/`nan` words and `_` digit group separators accepted by CPython are not
modelled; no string built by this pipeline contains them.  The value is kept
exact as a rational instead of being rounded to a binary double. -/
def pySign (t : List Char) : ℚ × List Char :=
  match t with
  | '-' :: r => (-1, r)
  | '+' :: r => (1, r)
  | r => (1, r)

def pyFloat? (l : List Char) : Option ℚ :=
  let t := pyStrip l
  let (sgn, t1) : ℚ × List Char := pySign t
  let (mant, ex) := splitExp t1
  let (ip, rest) := mant.span (fun c => !(c == '.'))
  let fp : Option (List Char) := match rest with
    | [] => some []
    | _ :: fr => if fr.contains '.' then none else some fr
  match fp with
  | none => none
  | some fr =>
    if ip.all isDigitC ∧ fr.all isDigitC ∧ (ip ≠ [] ∨ fr ≠ []) then
      let base : ℚ := (natOfDigits ip : ℚ) + (natOfDigits fr : ℚ) / (10 : ℚ) ^ fr.length
      match ex with
      | none => some (sgn * base)
      | some e =>
        match signedDigits? e with
        | none => none
        | some z => some (sgn * base * (10 : ℚ) ^ z)
    else none

/-- `|q| * 100` rounded half-up to an integer, computed on the reduced
fraction: `⌊(200·|num| + den) / (2·den)⌋`. -/
def roundCentsAbs (q : ℚ) : Nat := (200 * q.num.natAbs + q.den) / (2 * q.den)

/-- Model of CPython `f"{v:.2f}"`: sign of the value, then the absolute value
rounded to two fraction digits.  Rounding is round-half-up on the exact
rational; the source rounds the nearest binary double half-to-even, which
agrees everywhere the pipeline's properties are evaluated. -/
def formatTwoL (q : ℚ) : List Char :=
  let m : Nat := roundCentsAbs q
  (if q < 0 then ['-'] else []) ++ natDigits (m / 100) ++ '.' :: pad2 (m % 100)

/-! ## `transaction_processor.py` — `_normalize_amount` -/

/-- Characters removed by `re.sub(r'[R$£€\s]', '', s)`. -/
def currencyWs (c : Char) : Bool :=
  c == 'R' || c == '$' || c == '£' || c == '€' || pyWs c

/-- Characters kept by `re.sub(r'[^\d,.]', '', s)`. -/
def amountChar (c : Char) : Bool := isDigitC c || c == ',' || c == '.'

/-- True when `rfind('.')` exceeds `rfind(',')`: scanning from the right, a
period is met before any comma. -/
def lastSepDot (l : List Char) : Bool :=
  match l.reverse.find? (fun c => c == '.' || c == ',') with
  | some '.' => true
  | _ => false

/-- Decimal/thousands separator disambiguation of `_normalize_amount`
(lines 147–169): with both `','` and `'.'` present the later one is the
decimal separator; with only commas, a single comma followed by exactly two
digits is decimal, otherwise commas are thousands separators. -/
def resolveSeparators (l : List Char) : List Char :=
  if l.contains ',' ∧ l.contains '.' then
    if lastSepDot l then l.filter (fun c => c ≠ ',')
    else (l.filter (fun c => c ≠ '.')).map (fun c => if c = ',' then '.' else c)
  else if l.contains ',' then
    if l.count ',' = 1 ∧ ((l.dropWhile (fun c => c ≠ ',')).tail).length = 2 then
      l.map (fun c => if c = ',' then '.' else c)
    else l.filter (fun c => c ≠ ',')
  else l

/-- `TransactionProcessor._normalize_amount`, list-of-characters core. -/
def normalizeAmountL (l : List Char) : List Char :=
  if (pyStrip l).isEmpty then [] else
  let s1 := (pyStrip l).filter (fun c => !currencyWs c)
  let neg : Bool := s1.contains '-' || s1.contains '('
  let s2 := s1.filter amountChar
  let s3 := resolveSeparators s2
  match pyFloat? s3 with
  | none => []
  | some q => formatTwoL (if neg ∧ 0 < q then -q else q)

/-- `TransactionProcessor._normalize_amount`. -/
def normalizeAmount (s : String) : String := String.mk (normalizeAmountL s.data)

/-! ## `transaction_processor.py` — `_normalize_date` and the strptime model -/

/-- Gregorian leap-year test, as used by `datetime`. -/
def isLeap (y : Nat) : Bool := y % 4 == 0 && (y % 100 != 0 || y % 400 == 0)

/-- Number of days in a month, as validated by the `datetime` constructor. -/
def daysInMonth (y m : Nat) : Nat :=
  if m = 2 then (if isLeap y then 29 else 28)
  else if m = 4 ∨ m = 6 ∨ m = 9 ∨ m = 11 then 30 else 31

/-- `strptime` day/month field: one or two digits whose value lies in
`[lo, hi]` (the `%d` pattern accepts `1`–`31` with an optional leading zero,
`%m` accepts `1`–`12`). -/
def parseNumPart (l : List Char) (lo hi : Nat) : Option Nat :=
  if l ≠ [] ∧ l.length ≤ 2 ∧ l.all isDigitC ∧ lo ≤ natOfDigits l ∧ natOfDigits l ≤ hi then
    some (natOfDigits l)
  else none

/-- `strptime` year field: `%Y` is exactly four digits (`datetime` further
requires a year ≥ 1); `%y` is exactly two digits with the POSIX pivot
(`00`–`68` → 2000s, `69`–`99` → 1900s). -/
def parseYearPart (l : List Char) (fourDigit : Bool) : Option Nat :=
  if fourDigit then
    if l.length = 4 ∧ l.all isDigitC ∧ 1 ≤ natOfDigits l then some (natOfDigits l) else none
  else
    if l.length = 2 ∧ l.all isDigitC then
      some (if natOfDigits l ≤ 68 then 2000 + natOfDigits l else 1900 + natOfDigits l)
    else none

/-- Splitting on a separator character (CPython `str.split(sep)`),
accumulator-based. -/
def splitOnCAux : List Char → Char → List Char → List (List Char)
  | [], _, acc => [acc.reverse]
  | c :: r, sep, acc =>
    if c = sep then acc.reverse :: splitOnCAux r sep [] else splitOnCAux r sep (c :: acc)

/-- `l.split(sep)`. -/
def splitOnC (sep : Char) (l : List Char) : List (List Char) := splitOnCAux l sep []

/-- `datetime.strptime(t, "%d" sep "%m" sep year)`: three fields joined by
the literal separator, bounds- and calendar-validated. -/
def strptimeDMY (t : List Char) (sep : Char) (fourDigit : Bool) : Option (Nat × Nat × Nat) :=
  match splitOnC sep t with
  | [p1, p2, p3] =>
    match parseNumPart p1 1 31, parseNumPart p2 1 12, parseYearPart p3 fourDigit with
    | some d, some m, some y => if d ≤ daysInMonth y m then some (d, m, y) else none
    | _, _, _ => none
  | _ => none

/-- Lowercased three-letter month abbreviations recognised by `%b`
(C locale); `strptime` compares case-insensitively. -/
def monthAbbrevs : List (List Char) :=
  ["jan".data, "feb".data, "mar".data, "apr".data, "may".data, "jun".data,
   "jul".data, "aug".data, "sep".data, "oct".data, "nov".data, "dec".data]

/-- Lowercased full month names recognised by `%B` (C locale). -/
def monthFulls : List (List Char) :=
  ["january".data, "february".data, "march".data, "april".data, "may".data,
   "june".data, "july".data, "august".data, "september".data, "october".data,
   "november".data, "december".data]

/-- Month number from a `%b` abbreviation, case-insensitive. -/
def monthFromAbbrev (l : List Char) : Option Nat :=
  ((monthAbbrevs.findIdx? (fun w => w = l.map Char.toLower)).map (· + 1))

/-- Month number from a `%B` full name, case-insensitive. -/
def monthFromFull (l : List Char) : Option Nat :=
  ((monthFulls.findIdx? (fun w => w = l.map Char.toLower)).map (· + 1))

/-- Split into maximal nonempty runs of non-whitespace (CPython
`str.split()` with no argument). -/
def splitWsAux : List Char → List Char → List (List Char)
  | [], acc => if acc.isEmpty then [] else [acc.reverse]
  | c :: r, acc =>
    if pyWs c then
      if acc.isEmpty then splitWsAux r [] else acc.reverse :: splitWsAux r []
    else splitWsAux r (c :: acc)

/-- CPython `str.split()`. -/
def pySplitWs (l : List Char) : List (List Char) := splitWsAux l []

/-- Join word lists with single spaces (`' '.join(words)`). -/
def joinSpace (ws : List (List Char)) : List Char := (ws.intersperse [' ']).flatten

/-- `datetime.strptime(t, "%d %b %Y")` / `"%d %B %Y"`: a format-string
space matches a run of whitespace, so the fields are the whitespace-split
words; calendar-validated like the numeric formats. -/
def strptimeDMonY (t : List Char) (fullName : Bool) : Option (Nat × Nat × Nat) :=
  match pySplitWs t with
  | [p1, p2, p3] =>
    match parseNumPart p1 1 31, (if fullName then monthFromFull p2 else monthFromAbbrev p2),
          parseYearPart p3 true with
    | some d, some m, some y => if d ≤ daysInMonth y m then some (d, m, y) else none
    | _, _, _ => none
  | _ => none

/-- The day-first format list of `_normalize_date` (lines 66–77), tried in
source order: `%d/%m/%Y`, `%d-%m-%Y`, `%d.%m.%Y`, `%d %b %Y`, `%d %B %Y`,
`%d/%m/%y`, `%d-%m-%y`. -/
def tryDateFormats (t : List Char) : Option (Nat × Nat × Nat) :=
  (strptimeDMY t '/' true) <|> (strptimeDMY t '-' true) <|> (strptimeDMY t '.' true) <|>
  (strptimeDMonY t false) <|> (strptimeDMonY t true) <|>
  (strptimeDMY t '/' false) <|> (strptimeDMY t '-' false)

/-- Modelled from the spec: the `dateutil` fuzzy fallback, "a general parser
explicitly forced to day-first interpretation" (`date_parser.parse(s,
dayfirst=True)` — third-party code, not part of this repository).  Modelled
as the day-first numeric grammars with the three separators; every claim is
settled on inputs that never reach this fallback. -/
def dateutilDayFirst (t : List Char) : Option (Nat × Nat × Nat) :=
  (strptimeDMY t '/' true) <|> (strptimeDMY t '-' true) <|> (strptimeDMY t '.' true) <|>
  (strptimeDMY t '/' false) <|> (strptimeDMY t '-' false) <|> (strptimeDMY t '.' false)

/-- `dt.strftime('%d/%m/%Y')` (glibc): zero-padded day and month, year
rendered without padding (4 digits for the years this pipeline handles). -/
def strftimeDMY (d m y : Nat) : List Char :=
  pad2 d ++ '/' :: pad2 m ++ '/' :: natDigits y

/-- `TransactionProcessor._normalize_date`, list-of-characters core. -/
def normalizeDateL (l : List Char) : List Char :=
  if l.isEmpty ∨ (pyStrip l).isEmpty then [] else
  let t := pyStrip l
  match tryDateFormats t with
  | some (d, m, y) => strftimeDMY d m y
  | none =>
    match dateutilDayFirst t with
    | some (d, m, y) => strftimeDMY d m y
    | none => t

/-- `TransactionProcessor._normalize_date`. -/
def normalizeDate (s : String) : String := String.mk (normalizeDateL s.data)

/-! ## `transaction_processor.py` — `_clean_description`, `_clean_reference` -/

/-- `re.sub(r'^\s*' mark r'\s*', ' ', l)`: a maximal leading whitespace run,
the marker character, trailing whitespace, replaced by a single space. -/
def subLeadMark (mark : Char) (l : List Char) : List Char :=
  match l.dropWhile pyWs with
  | c :: r => if c = mark then ' ' :: r.dropWhile pyWs else l
  | [] => l

/-- `re.sub(r'\s*-\s*$', ' ', l)`: a trailing dash with surrounding
whitespace, replaced by a single space. -/
def subTrailDash (l : List Char) : List Char :=
  match l.reverse.dropWhile pyWs with
  | c :: r2 => if c = '-' then (r2.dropWhile pyWs).reverse ++ [' '] else l
  | [] => l

/-- `re.sub(r'\s{2,}', ' ', l)`: each whitespace run of length at least two
becomes one space (fuel-driven; `l.length + 1` fuel always suffices). -/
def collapseMultiWsAux : Nat → List Char → List Char
  | 0, l => l
  | _ + 1, [] => []
  | f + 1, c :: r =>
    if pyWs c then
      match r with
      | [] => [c]
      | d :: _ =>
        if pyWs d then ' ' :: collapseMultiWsAux f (r.dropWhile pyWs)
        else c :: collapseMultiWsAux f r
    else c :: collapseMultiWsAux f r

/-- `re.sub(r'\s{2,}', ' ', l)`. -/
def collapseMultiWs (l : List Char) : List Char := collapseMultiWsAux (l.length + 1) l

/-- Duplicate-word removal of `_clean_description` (lines 110–118): drop a
word whose lowercase form was already seen, unless it has at most two
characters; kept words are recorded. -/
def dedupWords : List (List Char) → List (List Char) → List (List Char)
  | [], _ => []
  | w :: ws, seen =>
    let wl := w.map Char.toLower
    if wl ∉ seen ∨ wl.length ≤ 2 then w :: dedupWords ws (wl :: seen)
    else dedupWords ws seen

/-- `TransactionProcessor._clean_description`, list-of-characters core. -/
def cleanDescriptionL (l : List Char) : List Char :=
  if l.isEmpty then [] else
  let d0 := joinSpace (pySplitWs l)
  let d1 := subLeadMark '-' d0
  let d2 := subTrailDash d1
  let d3 := subLeadMark '*' d2
  let d4 := collapseMultiWs d3
  let d5 := pyStrip d4
  joinSpace (dedupWords (pySplitWs d5) [])

/-- `TransactionProcessor._clean_description`. -/
def cleanDescription (s : String) : String := String.mk (cleanDescriptionL s.data)

/-- `TransactionProcessor._clean_reference`: keep word characters
(`re.sub(r'[^\w\d]', '', ...)`), strip, uppercase. -/
def cleanReferenceL (l : List Char) : List Char :=
  if l.isEmpty then [] else
  (pyStrip (l.filter (fun c => c.isAlphanum || c == '_'))).map Char.toUpper

/-- `TransactionProcessor._clean_reference`. -/
def cleanReference (s : String) : String := String.mk (cleanReferenceL s.data)

/-! ## `transaction_processor.py` — records, `_process_transaction`,
`_is_valid_transaction`, `process`, `get_summary` -/

/-- A transaction record.  The Python dictionaries always carry exactly
these string fields (a missing key reads as `''`). -/
structure Txn where
  date : String := ""
  description : String := ""
  reference : String := ""
  debit : String := ""
  credit : String := ""
  balance : String := ""
deriving DecidableEq, Repr

/-- The "Final Column Guard" of `_process_transaction` (lines 36–47):
negative credits and existing lone debits move to the debit column;
negative debits stay in debit with the credit cleared. -/
def columnGuard (negD negC : Bool) (nD nC : List Char) : List Char × List Char :=
  if (negC ∧ nC ≠ []) ∨ (nD ≠ [] ∧ nC = []) then (if nD ≠ [] then nD else nC, [])
  else if negD ∧ nD ≠ [] then (nD, [])
  else (nD, nC)

/-- `TransactionProcessor._process_transaction`: normalize every field and
run the sign-correction pass on the debit/credit columns (lines 24–56). -/
def processTransaction (t : Txn) : Txn :=
  let rawD := t.debit.data
  let rawC := t.credit.data
  let negD : Bool := rawD.contains '-' || rawD.contains '('
  let negC : Bool := rawC.contains '-' || rawC.contains '('
  let fin : List Char × List Char :=
    columnGuard negD negC (normalizeAmountL rawD) (normalizeAmountL rawC)
  { date := String.mk (normalizeDateL t.date.data),
    description := String.mk (cleanDescriptionL t.description.data),
    reference := String.mk (cleanReferenceL t.reference.data),
    debit := String.mk fin.1,
    credit := String.mk fin.2,
    balance := String.mk (normalizeAmountL t.balance.data) }

/-- `TransactionProcessor._is_valid_transaction` (lines 182–191). -/
def isValidTransaction (t : Txn) : Bool :=
  let hasDate := !t.date.isEmpty
  let hasDesc := !t.description.isEmpty
  let hasAmt := !t.debit.isEmpty || !t.credit.isEmpty || !t.balance.isEmpty
  (hasDate && (hasDesc || hasAmt)) || (hasDesc && hasAmt)

/-- `TransactionProcessor.process`: normalize each record, keep the valid
ones. -/
def process (ts : List Txn) : List Txn :=
  (ts.map processTransaction).filter isValidTransaction

/-- The summary figures returned by `get_summary` (the source returns the
bare integer `0` for the totals of an empty list; rendered here as `"0"`). -/
structure Summary where
  totalTransactions : Nat
  totalDebits : String
  totalCredits : String
  dateRange : Option String
deriving DecidableEq, Repr

/-- `datetime.strptime(s, '%d/%m/%Y')` on a raw field, as `get_summary` and
the merge sort key use it. -/
def parseDMY (s : String) : Option (Nat × Nat × Nat) := strptimeDMY s.data '/' true

/-- Sort/comparison key of a parsed `(day, month, year)` triple
(lexicographic year, month, day — `datetime` ordering). -/
def dateKeyN (x : Nat × Nat × Nat) : Nat := x.2.2 * 10000 + x.2.1 * 100 + x.1

/-- `TransactionProcessor.get_summary` (lines 193–241): iterates
`self.transactions` — the list the processor was constructed with — summing
`abs(float(debit))` and `float(credit)` where those strings are non-empty
and parse, counting every record, and taking the date range over the
records whose raw `date` parses as `%d/%m/%Y`. -/
def getSummary (ts : List Txn) : Summary :=
  if ts.isEmpty then ⟨0, "0", "0", none⟩ else
  let debits : ℚ := ts.foldl (fun a t =>
    if t.debit ≠ "" then
      match pyFloat? t.debit.data with
      | some q => a + |q|
      | none => a
    else a) 0
  let credits : ℚ := ts.foldl (fun a t =>
    if t.credit ≠ "" then
      match pyFloat? t.credit.data with
      | some q => a + q
      | none => a
    else a) 0
  let dates := ts.filterMap (fun t => if t.date ≠ "" then parseDMY t.date else none)
  let range : Option String :=
    match dates with
    | [] => none
    | d0 :: rest =>
      let lo := rest.foldl (fun a d => if dateKeyN d < dateKeyN a then d else a) d0
      let hi := rest.foldl (fun a d => if dateKeyN a < dateKeyN d then d else a) d0
      some (String.mk (strftimeDMY lo.1 lo.2.1 lo.2.2 ++ " - ".data ++
                       strftimeDMY hi.1 hi.2.1 hi.2.2))
  ⟨ts.length, String.mk (formatTwoL debits), String.mk (formatTwoL credits), range⟩

/-! ## `pdf_parser.py` — `_classify_amounts` -/

/-- Raw numeric value of an amount token (`_classify_amounts`, lines
366–371): strip currency symbols and whitespace, comma → period,
`'('` → `'-'`, drop `')'`, move a trailing minus to the front, convert with
`float` — an unconvertible token counts as `0.0`. -/
def amtVal (a : String) : ℚ :=
  let c1 := (a.data.filter (fun c => !currencyWs c)).map (fun c => if c = ',' then '.' else c)
  let c2 := (c1.map (fun c => if c = '(' then '-' else c)).filter (fun c => c ≠ ')')
  let c3 := if c2.getLast? = some '-' then '-' :: c2.dropLast else c2
  (pyFloat? c3).getD 0

/-- The assignment loop of `_classify_amounts` (lines 386–395): a negative
token overwrites the debit slot, a positive one the credit slot, and a
zero-valued token lands in credit only while both slots are still empty
strings. -/
def classifyLoop : List (String × ℚ) → String → String → String × String
  | [], d, c => (d, c)
  | (a, v) :: rest, d, c =>
    if v < 0 then classifyLoop rest a c
    else if 0 < v then classifyLoop rest d a
    else if d = "" ∧ c = "" then classifyLoop rest d a
    else classifyLoop rest d c

/-- `PDFParser._classify_amounts` (lines 361–397). -/
def classifyAmounts (amounts : List String) : String × String × String :=
  if amounts.isEmpty then ("", "", "") else
  let vals := amounts.map amtVal
  let split : List String × List ℚ × String :=
    if 2 ≤ amounts.length then (amounts.dropLast, vals.dropLast, (amounts.getLast?).getD "")
    else (amounts, vals, "")
  let dc := classifyLoop (split.1.zip split.2.1) "" ""
  (dc.1, dc.2, split.2.2)

/-! ## `pdf_parser.py` — `_find_date` and its regular expressions

The three `re.search` patterns are executed by hand-rolled backtracking
matchers: at each start position (leftmost first) the quantifier lengths are
tried in the greedy order CPython's engine uses. -/

/-- `n` digit characters exactly, returning the capture and the rest. -/
def digitsRun? (l : List Char) (n : Nat) : Option (List Char × List Char) :=
  if (l.take n).length = n ∧ (l.take n).all isDigitC then some (l.take n, l.drop n) else none

/-- The separator class of whitespace, slash and dash. -/
def sepChar (c : Char) : Bool := pyWs c || c == '/' || c == '-'

/-- Word character (`\w`), for `\b` boundaries. -/
def isWordC (c : Char) : Bool := c.isAlphanum || c == '_'

/-- First defined alternative — the backtracking order of a regex engine. -/
def firstSome {α : Type} (xs : List (Option α)) : Option α :=
  xs.foldr (fun a b => a <|> b) none

/-- The month-and-year part `(\d{1,2})[sep](\d{2,4})` of the full-date
pattern, given the already captured day `d`. -/
def matchDMYTail (r2 : List Char) (d : List Char) :
    Option (List Char × List Char × List Char) :=
  firstSome ([2, 1].map fun n2 =>
    (digitsRun? r2 n2).bind fun p2 =>
    match p2.2 with
    | s2 :: r4 =>
      if sepChar s2 then
        firstSome ([4, 3, 2].map fun n3 =>
          (digitsRun? r4 n3).map (fun p3 => (d, p2.1, p3.1)))
      else none
    | [] => none)

/-- Match `(\\d{1,2})[sep](\\d{1,2})[sep](\\d{2,4})` (sep: whitespace, slash
or dash) at the head of `l`, greedy quantifiers with backtracking. -/
def matchDMYAt (l : List Char) : Option (List Char × List Char × List Char) :=
  firstSome ([2, 1].map fun n1 =>
    (digitsRun? l n1).bind fun p1 =>
    match p1.2 with
    | s1 :: r2 => if sepChar s1 then matchDMYTail r2 p1.1 else none
    | [] => none)

/-- `re.search` for the full-numeric-date pattern: leftmost match wins. -/
def searchDMY : List Char → Option (List Char × List Char × List Char)
  | [] => none
  | c :: t => matchDMYAt (c :: t) <|> searchDMY t

/-- Match `\\b(\\d{1,2})[sep](\\d{1,2})\\b` at the head of `l`; `prevWord`
says whether the character before this position is a word character. -/
def matchDMAt (prevWord : Bool) (l : List Char) : Option (List Char × List Char) :=
  if prevWord then none else
  firstSome ([2, 1].map fun n1 =>
    (digitsRun? l n1).bind fun p1 =>
    match p1.2 with
    | s1 :: r2 =>
      if sepChar s1 then
        firstSome ([2, 1].map fun n2 =>
          (digitsRun? r2 n2).bind fun p2 =>
          match p2.2 with
          | [] => some (p1.1, p2.1)
          | c :: _ => if isWordC c then none else some (p1.1, p2.1))
      else none
    | [] => none)

/-- `re.search` for the missing-year pattern, tracking word boundaries. -/
def searchDMAux : Bool → List Char → Option (List Char × List Char)
  | _, [] => none
  | pw, c :: t => matchDMAt pw (c :: t) <|> searchDMAux (isWordC c) t

/-- `re.search(r'\\b(\\d{1,2})[sep](\\d{1,2})\\b', t)`. -/
def searchDM (l : List Char) : Option (List Char × List Char) := searchDMAux false l

/-- Match `(\d{1,2})\s+([A-Za-z]{3})` at the head of `l`: digits, a
(maximal) nonempty whitespace run, then exactly three letters captured. -/
def matchDMonAt (l : List Char) : Option (List Char × List Char) :=
  firstSome ([2, 1].map fun n1 =>
    (digitsRun? l n1).bind fun p1 =>
    if (p1.2.takeWhile pyWs).isEmpty then none else
    let r2 := p1.2.dropWhile pyWs
    if (r2.take 3).length = 3 ∧ (r2.take 3).all Char.isAlpha then some (p1.1, r2.take 3)
    else none)

/-- `re.search` for the day-plus-month-abbreviation pattern. -/
def searchDMon : List Char → Option (List Char × List Char)
  | [] => none
  | c :: t => matchDMonAt (c :: t) <|> searchDMon t

/-- First branch of `_find_date` (lines 313–319): full numeric date with
day/month bounds validation; a two-digit year is prefixed with `"20"`. -/
def findDateB1 (t : List Char) : Option (List Char) :=
  match searchDMY t with
  | some (d, m, y) =>
    let y2 := if y.length = 2 then '2' :: '0' :: y else y
    if 1 ≤ natOfDigits d ∧ natOfDigits d ≤ 31 ∧ 1 ≤ natOfDigits m ∧ natOfDigits m ≤ 12 then
      some (zfill2 d ++ '/' :: zfill2 m ++ '/' :: y2)
    else none
  | none => none

/-- Second branch of `_find_date` (lines 322–329): day/month with no year,
bounds-validated, the year taken from `default_year`. -/
def findDateB2 (t : List Char) (defaultYear : Nat) : Option (List Char) :=
  match searchDM t with
  | some (d, m) =>
    if 1 ≤ natOfDigits d ∧ natOfDigits d ≤ 31 ∧ 1 ≤ natOfDigits m ∧ natOfDigits m ≤ 12 then
      some (pad2 (natOfDigits d) ++ '/' :: pad2 (natOfDigits m) ++ '/' :: natDigits defaultYear)
    else none
  | none => none

/-- Third branch of `_find_date` (lines 332–338): day plus three-letter
month abbreviation resolved via `strptime('%b')`; the day is rendered with
`zfill(2)` without any bounds check. -/
def findDateB3 (t : List Char) (defaultYear : Nat) : Option (List Char) :=
  match searchDMon t with
  | some (d, mname) =>
    match monthFromAbbrev mname with
    | some mon => some (zfill2 d ++ '/' :: pad2 mon ++ '/' :: natDigits defaultYear)
    | none => none
  | none => none

/-- `PDFParser._find_date` (lines 308–340): a branch whose regex matches but
whose validation fails falls through to the next branch. -/
def findDate (text : String) (defaultYear : Nat) : Option String :=
  if text.isEmpty then none else
  let t := pyStrip text.data
  ((findDateB1 t <|> findDateB2 t defaultYear) <|> findDateB3 t defaultYear).map String.mk

/-! ## `pdf_parser.py` — `_parse_text_greedy` -/

/-- The separator class of slash and dash. -/
def sepSlashDash (c : Char) : Bool := c == '/' || c == '-'

/-- Match `\\d{1,2}[sd]\\d{1,2}[sd]\\d{2,4}` (sd: slash or dash)` at the head, returning the
matched length. -/
def matchTxtDate1At (l : List Char) : Option Nat :=
  firstSome ([2, 1].map fun n1 =>
    (digitsRun? l n1).bind fun p1 =>
    match p1.2 with
    | s1 :: r2 =>
      if sepSlashDash s1 then
        firstSome ([2, 1].map fun n2 =>
          (digitsRun? r2 n2).bind fun p2 =>
          match p2.2 with
          | s2 :: r4 =>
            if sepSlashDash s2 then
              firstSome ([4, 3, 2].map fun n3 =>
                (digitsRun? r4 n3).map (fun _ => n1 + 1 + n2 + 1 + n3))
            else none
          | [] => none)
      else none
    | [] => none)

/-- Lowercase ASCII letter. -/
def isLowerC (c : Char) : Bool := 'a' ≤ c ∧ c ≤ 'z'

/-- Uppercase ASCII letter. -/
def isUpperC (c : Char) : Bool := 'A' ≤ c ∧ c ≤ 'Z'

/-- Match `\d{1,2}\s+[A-Z][a-z]{2,3}` at the head, returning the matched
length. -/
def matchTxtDate2At (l : List Char) : Option Nat :=
  firstSome ([2, 1].map fun n1 =>
    (digitsRun? l n1).bind fun p1 =>
    let k := (p1.2.takeWhile pyWs).length
    if k = 0 then none else
    match p1.2.drop k with
    | c :: r =>
      if isUpperC c then
        firstSome ([3, 2].map fun n3 =>
          if (r.take n3).length = n3 ∧ (r.take n3).all isLowerC then some (n1 + k + 1 + n3)
          else none)
      else none
    | [] => none)

/-- Match `\d{2}\s\d{2}` at the head, returning the matched length. -/
def matchTxtDate3At (l : List Char) : Option Nat :=
  match l with
  | d1 :: d2 :: s :: d3 :: d4 :: _ =>
    if isDigitC d1 ∧ isDigitC d2 ∧ pyWs s ∧ isDigitC d3 ∧ isDigitC d4 then some 5 else none
  | _ => none

/-- The date regex of `_parse_text_greedy` (line 290), alternatives in
source order. -/
def matchTxtDateAt (l : List Char) : Option Nat :=
  (matchTxtDate1At l <|> matchTxtDate2At l) <|> matchTxtDate3At l

/-- `re.search` for the line-date pattern: the leftmost matched substring. -/
def searchTxtDate : List Char → Option (List Char)
  | [] => none
  | c :: t =>
    match matchTxtDateAt (c :: t) with
    | some n => some ((c :: t).take n)
    | none => searchTxtDate t

/-- `[,\s]` — thousands-group separator of the amount regex. -/
def commaWs (c : Char) : Bool := c == ',' || pyWs c

/-- `[.,]` — decimal separator of the amount regex. -/
def dotComma (c : Char) : Bool := c == '.' || c == ','

/-- One `[,\s]\d{3}` thousands group. -/
def repOnce (l : List Char) : Option (List Char) :=
  match l with
  | c :: d1 :: d2 :: d3 :: r =>
    if commaWs c ∧ isDigitC d1 ∧ isDigitC d2 ∧ isDigitC d3 then some r else none
  | _ => none

/-- Remainders after `0, 1, 2, …` repetitions of the thousands group
(fuel-driven, `l.length` fuel suffices). -/
def grpRepsAux : Nat → List Char → List (List Char)
  | 0, l => [l]
  | f + 1, l =>
    match repOnce l with
    | some r => l :: grpRepsAux f r
    | none => [l]

/-- Remainders in greedy order: most repetitions first. -/
def grpReps (l : List Char) : List (List Char) := (grpRepsAux l.length l).reverse

/-- Match `\d{1,3}(?:[,\s]\d{3})*(?:[.,]\d{2})-?` at the head of `l`,
returning the matched length. -/
def matchAmtTailAt (l : List Char) : Option Nat :=
  firstSome ([3, 2, 1].map fun n1 =>
    (digitsRun? l n1).bind fun p1 =>
    firstSome ((grpReps p1.2).map fun r2 =>
      match r2 with
      | c :: d1 :: d2 :: r3 =>
        if dotComma c ∧ isDigitC d1 ∧ isDigitC d2 then
          some (l.length - r3.length + (match r3 with | '-' :: _ => 1 | _ => 0))
        else none
      | _ => none))

/-- Match the full amount pattern `-?\d{1,3}(?:[,\s]\d{3})*(?:[.,]\d{2})-?`
at the head of `l`. -/
def matchAmtAt (l : List Char) : Option Nat :=
  match l with
  | '-' :: r => (matchAmtTailAt r).map (· + 1)
  | _ => matchAmtTailAt l

/-- `re.findall` for the amount pattern: scan left to right, emit each
non-overlapping match and resume after it (fuel-driven). -/
def findallAmtAux : Nat → List Char → List (List Char)
  | 0, _ => []
  | _ + 1, [] => []
  | f + 1, c :: t =>
    match matchAmtAt (c :: t) with
    | some n => (c :: t).take n :: findallAmtAux f ((c :: t).drop n)
    | none => findallAmtAux f t

/-- `re.findall(amount_pattern, l)`. -/
def findallAmt (l : List Char) : List (List Char) := findallAmtAux l.length l

/-- CPython `str.replace(pat, rep)` for a nonempty pattern: all
non-overlapping occurrences, left to right (fuel-driven). -/
def replaceAllAux : Nat → List Char → List Char → List Char → List Char
  | 0, l, _, _ => l
  | _ + 1, [], _, _ => []
  | f + 1, c :: t, pat, rep =>
    if pat.isPrefixOf (c :: t) then rep ++ replaceAllAux f ((c :: t).drop pat.length) pat rep
    else c :: replaceAllAux f t pat rep

/-- `l.replace(pat, rep)`. -/
def replaceAll (l pat rep : List Char) : List Char := replaceAllAux l.length l pat rep

/-- One line of `PDFParser._parse_text_greedy` (lines 287–300), threading
the carried-forward date and the accumulated candidates. -/
def parseTextLine (docYear : Nat) (st : Option String × List Txn) (rawLine : List Char) :
    Option String × List Txn :=
  let line := pyStrip rawLine
  if line.isEmpty then st else
  let dateM := searchTxtDate line
  let amts := findallAmt line
  let last1 : Option String :=
    match dateM with
    | some dm =>
      match findDate (String.mk dm) docYear with
      | some pd => some pd
      | none => st.1
    | none => st.1
  if amts.isEmpty then (last1, st.2) else
  let cls := classifyAmounts (amts.map String.mk)
  let desc0 := match dateM with
    | some dm => replaceAll line dm []
    | none => line
  let desc1 := amts.foldl (fun d a => replaceAll d a []) desc0
  let desc := pyStrip (joinSpace (pySplitWs desc1))
  (last1, st.2 ++ [{ date := last1.getD "", description := String.mk desc,
                     reference := "", debit := cls.1, credit := cls.2.1,
                     balance := cls.2.2 }])

/-- `PDFParser._parse_text_greedy`, over the extracted text split on
newlines, with the document year used for date resolution. -/
def parseTextGreedy (text : String) (docYear : Nat) : List Txn :=
  ((text.data.splitOn '\n').foldl (parseTextLine docYear) (none, [])).2

/-! ## `pdf_parser.py` — merge/deduplication and sort
(`parse_transactions`, lines 50–71) -/

/-- Deduplication signature (line 57):
`date|description.lower()|debit-or-credit|balance`, with `"0"` standing in
for an absent amount or balance. -/
def sigOf (t : Txn) : String :=
  let amt := if t.debit ≠ "" then t.debit else if t.credit ≠ "" then t.credit else "0"
  let bal := if t.balance ≠ "" then t.balance else "0"
  t.date ++ "|" ++ String.mk (t.description.data.map Char.toLower) ++ "|" ++ amt ++ "|" ++ bal

/-- A candidate with a non-empty debit or credit (the merge keeps only
these). -/
def hasAmt (t : Txn) : Bool := !t.debit.isEmpty || !t.credit.isEmpty

/-- The merge/deduplication of `parse_transactions` (lines 50–67): the kept
visual candidates record their signatures; a text candidate is appended
only when its signature is not among them. -/
def mergeCandidates (visual text : List Txn) : List Txn :=
  let vp := visual.foldl
    (fun (p : List Txn × List String) t =>
      if hasAmt t then (p.1 ++ [t], p.2 ++ [sigOf t]) else p)
    ([], [])
  text.foldl
    (fun (a : List Txn) t => if hasAmt t ∧ sigOf t ∉ vp.2 then a ++ [t] else a)
    vp.1

/-- Whether the sort key of a row can be computed without an exception:
an empty date uses `datetime.max`, a non-empty one must parse as
`%d/%m/%Y`. -/
def txnDateOk (t : Txn) : Bool := t.date == "" || (parseDMY t.date).isSome

/-- The comparison key of the merge sort (line 70): parsed date, with
`datetime.max` (here `10^8`, above every parseable date's key) for an empty
date. -/
def sortKey (t : Txn) : Nat :=
  if t.date = "" then 100000000
  else
    match parseDMY t.date with
    | some x => dateKeyN x
    | none => 100000000

/-- The `try: final_transactions.sort(...) except: pass` of
`parse_transactions` (lines 69–71).  CPython's `list.sort` computes all
keys up front, so a key exception (a non-empty unparseable date) leaves the
list untouched; otherwise the list is stably sorted by key — modelled by
insertion sort, which produces the same unique stable ordering as the
source's stable sort. -/
def sortTransactions (l : List Txn) : List Txn :=
  if l.all txnDateOk then List.insertionSort (fun a b => sortKey a ≤ sortKey b) l else l

/-! ## Specification-side characterizations of the amount classifier

These follow the claim's wording ("negative → debit, positive → credit,
raw string retained, last of the same sign wins, zero → credit only when
neither slot is yet filled") and are proved equal to the classifier's
loop. -/

/-- The last token of the list whose numeric value is negative (later
tokens overwrite earlier ones). -/
def lastNegStr : List String → Option String
  | [] => none
  | a :: rest => (lastNegStr rest) <|> (if amtVal a < 0 then some a else none)

/-- The last token of the list whose numeric value is positive. -/
def lastPosStr : List String → Option String
  | [] => none
  | a :: rest => (lastPosStr rest) <|> (if 0 < amtVal a then some a else none)

/-- The first non-empty token in the zero-valued run preceding any
negative token — the only token the zero rule can leave in the credit
slot. -/
def firstZeroStr (l : List String) : Option String :=
  (l.takeWhile (fun a => !decide (amtVal a < 0))).find? (fun a => a != "")

/-- The credit slot as the claim describes it: the last positive token if
one exists, otherwise the token placed by the zero rule (if any). -/
def specCredit (l : List String) : String :=
  match lastPosStr l with
  | some a => a
  | none => (firstZeroStr l).getD ""

/-- The transaction-amount candidates: all tokens but the balance when the
row has at least two tokens, every token otherwise. -/
def txCandidates (amounts : List String) : List String :=
  if 2 ≤ amounts.length then amounts.dropLast else amounts

/-! ## Basic helper lemmas -/

/-- Characters with equal code points are equal. -/
theorem char_eq_of_toNat {a b : Char} (h : a.toNat = b.toNat) : a = b :=
  Char.eq_of_val_eq (UInt32.toNat.inj h)

/-- Unfolding of the digit test to code-point bounds. -/
theorem isDigitC_iff {c : Char} : isDigitC c = true ↔ 48 ≤ c.toNat ∧ c.toNat ≤ 57 := by
  simp [isDigitC]

/-- The value of a digit character is below ten. -/
theorem digitVal_lt {c : Char} (h : isDigitC c = true) : digitVal c < 10 := by
  have := isDigitC_iff.mp h
  unfold digitVal
  omega

/-- Code point of `Nat.digitChar` on a decimal digit. -/
theorem digitChar_toNat {v : Nat} (h : v < 10) : (Nat.digitChar v).toNat = v + 48 := by
  interval_cases v <;> rfl

/-- Rendering the value of a digit character gives the character back. -/
theorem digitChar_digitVal {c : Char} (h : isDigitC c = true) :
    Nat.digitChar (digitVal c) = c := by
  have hb := isDigitC_iff.mp h
  apply char_eq_of_toNat
  rw [digitChar_toNat (digitVal_lt h)]
  unfold digitVal
  omega

/-- `Nat.digitChar` of a decimal digit is a digit character. -/
theorem isDigitC_digitChar {v : Nat} (h : v < 10) : isDigitC (Nat.digitChar v) = true := by
  interval_cases v <;> rfl

/-- Value of `Nat.digitChar` on a decimal digit. -/
theorem digitVal_digitChar {v : Nat} (h : v < 10) : digitVal (Nat.digitChar v) = v := by
  interval_cases v <;> rfl

/-- A digit character never equals a non-digit character. -/
theorem beq_false_of_digit {c d : Char} (h : isDigitC c = true) (hd : isDigitC d = false) :
    (c == d) = false := by
  rw [beq_eq_false_iff_ne]
  rintro rfl
  rw [h] at hd
  cases hd

/-- Digit characters are not whitespace. -/
theorem pyWs_digit {c : Char} (h : isDigitC c = true) : pyWs c = false := by
  simp only [pyWs, Bool.or_eq_false_iff]
  refine ⟨⟨⟨⟨⟨?_, ?_⟩, ?_⟩, ?_⟩, ?_⟩, ?_⟩ <;> exact beq_false_of_digit h (by decide)

/-- Digit characters are not currency symbols or whitespace. -/
theorem currencyWs_digit {c : Char} (h : isDigitC c = true) : currencyWs c = false := by
  simp only [currencyWs, Bool.or_eq_false_iff]
  exact ⟨⟨⟨⟨beq_false_of_digit h (by decide), beq_false_of_digit h (by decide)⟩,
    beq_false_of_digit h (by decide)⟩, beq_false_of_digit h (by decide)⟩, pyWs_digit h⟩

/-- Digit characters survive the `[^\d,.]` removal. -/
theorem amountChar_digit {c : Char} (h : isDigitC c = true) : amountChar c = true := by
  simp [amountChar, h]

/-- A digit character differs from any non-digit character (propositional
form). -/
theorem digit_ne {c d : Char} (h : isDigitC c = true) (hd : isDigitC d = false) : c ≠ d := by
  rintro rfl
  rw [h] at hd
  cases hd

/-- Natural-number value of a one-character digit list. -/
theorem natOfDigits_single (c : Char) : natOfDigits [c] = digitVal c := by
  simp [natOfDigits]

/-- Appending one digit multiplies the value by ten and adds the digit. -/
theorem natOfDigits_append_one (l : List Char) (c : Char) :
    natOfDigits (l ++ [c]) = 10 * natOfDigits l + digitVal c := by
  simp [natOfDigits, List.foldl_append]

/-- Fuel does not matter for `natDigitsAux` once it exceeds the argument. -/
theorem natDigitsAux_congr :
    ∀ {n : Nat} (f g : Nat), n < f → n < g → natDigitsAux f n = natDigitsAux g n := by
  intro n
  induction n using Nat.strong_induction_on with
  | _ n ih =>
    intro f g hf hg
    match f, g with
    | f + 1, g + 1 =>
      unfold natDigitsAux
      by_cases h : n < 10
      · simp [h]
      · simp only [h, if_false]
        have hd : n / 10 < n := Nat.div_lt_self (by omega) (by omega)
        rw [ih (n / 10) hd f g (by omega) (by omega)]

/-- Unfolding of `natDigits` below ten. -/
theorem natDigits_lt_ten {n : Nat} (h : n < 10) : natDigits n = [Nat.digitChar n] := by
  unfold natDigits natDigitsAux
  simp [h]

/-- Unfolding of `natDigits` at ten or above. -/
theorem natDigits_ge_ten {n : Nat} (h : 10 ≤ n) :
    natDigits n = natDigits (n / 10) ++ [Nat.digitChar (n % 10)] := by
  conv_lhs => unfold natDigits natDigitsAux
  simp only [Nat.not_lt.mpr h, if_false]
  have hd : n / 10 < n := Nat.div_lt_self (by omega) (by omega)
  rw [natDigitsAux_congr n (n / 10 + 1) hd (Nat.lt_succ_self _)]
  rfl

/-- The decimal rendering of `n` consists of digit characters. -/
theorem natDigits_all_digits (n : Nat) : (natDigits n).all isDigitC = true := by
  induction n using Nat.strong_induction_on with
  | _ n ih =>
    by_cases h : n < 10
    · rw [natDigits_lt_ten h]
      simp [isDigitC_digitChar h]
    · rw [natDigits_ge_ten (by omega)]
      have hd : n / 10 < n := Nat.div_lt_self (by omega) (by omega)
      simp [List.all_append, ih _ hd, isDigitC_digitChar (Nat.mod_lt n (by omega))]

/-- The decimal rendering is never empty. -/
theorem natDigits_ne_nil (n : Nat) : natDigits n ≠ [] := by
  by_cases h : n < 10
  · rw [natDigits_lt_ten h]; simp
  · rw [natDigits_ge_ten (by omega)]; simp

/-- Reading back the decimal rendering gives the number. -/
theorem natOfDigits_natDigits (n : Nat) : natOfDigits (natDigits n) = n := by
  induction n using Nat.strong_induction_on with
  | _ n ih =>
    by_cases h : n < 10
    · rw [natDigits_lt_ten h, natOfDigits_single, digitVal_digitChar h]
    · have hd : n / 10 < n := Nat.div_lt_self (by omega) (by omega)
      rw [natDigits_ge_ten (by omega), natOfDigits_append_one, ih _ hd,
        digitVal_digitChar (Nat.mod_lt n (by omega))]
      omega

/-- Length of the decimal rendering of a one-digit number. -/
theorem natDigits_length_one {n : Nat} (h : n < 10) : (natDigits n).length = 1 := by
  rw [natDigits_lt_ten h]; rfl

/-- Length of the decimal rendering of a two-digit number. -/
theorem natDigits_length_two {n : Nat} (h1 : 10 ≤ n) (h2 : n ≤ 99) :
    (natDigits n).length = 2 := by
  rw [natDigits_ge_ten h1, List.length_append, natDigits_length_one (by omega)]
  rfl

/-- Length of the decimal rendering of a four-digit number. -/
theorem natDigits_length_four {n : Nat} (h1 : 1000 ≤ n) (h2 : n ≤ 9999) :
    (natDigits n).length = 4 := by
  rw [natDigits_ge_ten (by omega), List.length_append,
    natDigits_ge_ten (n := n / 10) (by omega), List.length_append,
    natDigits_length_two (n := n / 10 / 10) (by omega) (by omega)]
  rfl

/-- `pad2` renders the value of any list of at most two digit characters
back to exactly that list, left-padded with `'0'`. -/
theorem pad2_natOfDigits_eq_zfill2 {l : List Char} (h1 : 1 ≤ l.length)
    (h2 : l.length ≤ 2) (h3 : l.all isDigitC = true) : pad2 (natOfDigits l) = zfill2 l := by
  match l, h1, h2 with
  | [c], _, _ =>
    have hc : isDigitC c = true := by simpa using h3
    have hz : zfill2 [c] = ['0', c] := by unfold zfill2; simp
    rw [natOfDigits_single, hz]
    unfold pad2
    simp [digitVal_lt hc, digitChar_digitVal hc]
  | [c1, c2], _, _ =>
    have hc1 : isDigitC c1 = true := by simp [List.all_cons] at h3; exact h3.1
    have hc2 : isDigitC c2 = true := by simp [List.all_cons] at h3; exact h3.2
    have hv1 := digitVal_lt hc1
    have hv2 := digitVal_lt hc2
    have hval : natOfDigits [c1, c2] = 10 * digitVal c1 + digitVal c2 := by
      simp [natOfDigits]
    have hz : zfill2 [c1, c2] = [c1, c2] := by unfold zfill2; simp
    rw [hval, hz]
    unfold pad2
    by_cases h10 : 10 * digitVal c1 + digitVal c2 < 10
    · have hz1 : digitVal c1 = 0 := by omega
      have he1 : c1 = '0' := by rw [← digitChar_digitVal hc1, hz1]; rfl
      have he2 : Nat.digitChar (10 * digitVal c1 + digitVal c2) = c2 := by
        rw [hz1, show 10 * 0 + digitVal c2 = digitVal c2 by omega, digitChar_digitVal hc2]
      simp only [h10, if_true]
      rw [he2, he1]
    · simp only [h10, if_false]
      rw [natDigits_ge_ten (by omega)]
      have hdiv : (10 * digitVal c1 + digitVal c2) / 10 = digitVal c1 := by omega
      have hmod : (10 * digitVal c1 + digitVal c2) % 10 = digitVal c2 := by omega
      rw [hdiv, hmod, natDigits_lt_ten hv1, digitChar_digitVal hc1, digitChar_digitVal hc2]
      rfl

/-- An alternation succeeds through its left or its right arm. -/
theorem optionOrSome {α : Type} {a b : Option α} {v : α} (h : (a <|> b) = some v) :
    a = some v ∨ b = some v := by
  cases a
  · right; simpa using h
  · left; simpa using h

/-- A successful `firstSome` returns one of its alternatives. -/
theorem firstSome_some {α : Type} {xs : List (Option α)} {v : α}
    (h : firstSome xs = some v) : some v ∈ xs := by
  induction xs with
  | nil => cases h
  | cons x t ih =>
    rcases optionOrSome (h : (x <|> firstSome t) = some v) with h' | h'
    · rw [h']; exact List.mem_cons_self _ _
    · exact List.mem_cons_of_mem _ (ih h')

/-- Shape of a successful `digitsRun?`: the capture is `n` digit
characters. -/
theorem digitsRun?_some {l s r : List Char} {n : Nat} (h : digitsRun? l n = some (s, r)) :
    s.length = n ∧ s.all isDigitC = true ∧ s = l.take n ∧ r = l.drop n := by
  unfold digitsRun? at h
  split at h
  · rename_i hc
    injection h with h'
    injection h' with h1 h2
    subst h1; subst h2
    exact ⟨hc.1, hc.2, rfl, rfl⟩
  · cases h

/-- A Lean string is the empty literal iff its character list is empty. -/
theorem mk_eq_empty {l : List Char} : (String.mk l = "") ↔ l = [] := by
  rw [show ("" : String) = String.mk [] from rfl]
  exact ⟨fun h => congrArg String.data h, fun h => congrArg String.mk h⟩

/-- `isEmpty` is false on a string different from the empty literal. -/
theorem isEmpty_false {s : String} (h : s ≠ "") : s.isEmpty = false := by
  cases he : s.isEmpty
  · rfl
  · exact absurd ((String.isEmpty_iff _).mp he) h

/-- Shape of the captures of the month-and-year tail matcher: the day is
passed through and the month capture is one or two digits. -/
theorem matchDMYTail_shape {r2 dd d m y : List Char}
    (h : matchDMYTail r2 dd = some (d, m, y)) :
    d = dd ∧ 1 ≤ m.length ∧ m.length ≤ 2 ∧ m.all isDigitC = true := by
  unfold matchDMYTail at h
  have hmem := firstSome_some h
  simp only [List.mem_map, List.mem_cons, List.not_mem_nil, or_false] at hmem
  obtain ⟨n2, hn2, halt⟩ := hmem
  rcases Option.bind_eq_some.mp halt with ⟨p2, hp2, hcont⟩
  obtain ⟨s2, rest2⟩ := p2
  obtain ⟨hlen, hdig, -, -⟩ := digitsRun?_some hp2
  cases rest2 with
  | nil => dsimp only at hcont; cases hcont
  | cons sc r4 =>
    dsimp only at hcont
    by_cases hsep : sepChar sc = true
    · rw [if_pos hsep] at hcont
      have hmem3 := firstSome_some hcont
      simp only [List.mem_map, List.mem_cons, List.not_mem_nil, or_false] at hmem3
      obtain ⟨n3, _, halt3⟩ := hmem3
      rcases Option.map_eq_some'.mp halt3 with ⟨p3, -, heq⟩
      injection heq with h1 h2
      injection h2 with h2 h3
      subst h1; subst h2
      rcases hn2 with rfl | rfl
      · exact ⟨rfl, by omega, by omega, hdig⟩
      · exact ⟨rfl, by omega, by omega, hdig⟩
    · rw [if_neg hsep] at hcont; cases hcont

/-- Shape of the captures of the full-date matcher: day and month captures
are one or two digits each. -/
theorem matchDMYAt_shape {l d m y : List Char} (h : matchDMYAt l = some (d, m, y)) :
    (1 ≤ d.length ∧ d.length ≤ 2 ∧ d.all isDigitC = true) ∧
    (1 ≤ m.length ∧ m.length ≤ 2 ∧ m.all isDigitC = true) := by
  unfold matchDMYAt at h
  have hmem := firstSome_some h
  simp only [List.mem_map, List.mem_cons, List.not_mem_nil, or_false] at hmem
  obtain ⟨n1, hn1, halt⟩ := hmem
  rcases Option.bind_eq_some.mp halt with ⟨p1, hp1, hcont⟩
  obtain ⟨s1, rest1⟩ := p1
  obtain ⟨hlen, hdig, -, -⟩ := digitsRun?_some hp1
  cases rest1 with
  | nil => dsimp only at hcont; cases hcont
  | cons sc r2 =>
    dsimp only at hcont
    by_cases hsep : sepChar sc = true
    · rw [if_pos hsep] at hcont
      obtain ⟨hdd, hm1, hm2, hmd⟩ := matchDMYTail_shape hcont
      subst hdd
      rcases hn1 with rfl | rfl
      · exact ⟨⟨by omega, by omega, hdig⟩, hm1, hm2, hmd⟩
      · exact ⟨⟨by omega, by omega, hdig⟩, hm1, hm2, hmd⟩
    · rw [if_neg hsep] at hcont; cases hcont

/-- Shape of the captures of `re.search` for the full-date pattern. -/
theorem searchDMY_shape {l d m y : List Char} (h : searchDMY l = some (d, m, y)) :
    (1 ≤ d.length ∧ d.length ≤ 2 ∧ d.all isDigitC = true) ∧
    (1 ≤ m.length ∧ m.length ≤ 2 ∧ m.all isDigitC = true) := by
  induction l with
  | nil => cases h
  | cons c t ih =>
    rcases optionOrSome (show (matchDMYAt (c :: t) <|> searchDMY t) = some (d, m, y) from h)
      with h' | h'
    · exact matchDMYAt_shape h'
    · exact ih h'

/-- Shape of the captures of the missing-year matcher. -/
theorem matchDMAt_shape {pw : Bool} {l d m : List Char} (h : matchDMAt pw l = some (d, m)) :
    (1 ≤ d.length ∧ d.length ≤ 2 ∧ d.all isDigitC = true) ∧
    (1 ≤ m.length ∧ m.length ≤ 2 ∧ m.all isDigitC = true) := by
  unfold matchDMAt at h
  split at h
  · cases h
  · have hmem := firstSome_some h
    simp only [List.mem_map, List.mem_cons, List.not_mem_nil, or_false] at hmem
    obtain ⟨n1, hn1, halt⟩ := hmem
    rcases Option.bind_eq_some.mp halt with ⟨p1, hp1, hcont⟩
    obtain ⟨s1, rest1⟩ := p1
    obtain ⟨hlen, hdig, -, -⟩ := digitsRun?_some hp1
    cases rest1 with
    | nil => dsimp only at hcont; cases hcont
    | cons sc r2 =>
      dsimp only at hcont
      by_cases hsep : sepChar sc = true
      · rw [if_pos hsep] at hcont
        have hmem2 := firstSome_some hcont
        simp only [List.mem_map, List.mem_cons, List.not_mem_nil, or_false] at hmem2
        obtain ⟨n2, hn2, halt2⟩ := hmem2
        rcases Option.bind_eq_some.mp halt2 with ⟨p2, hp2, hcont2⟩
        obtain ⟨s2, rest2⟩ := p2
        obtain ⟨hlen2, hdig2, -, -⟩ := digitsRun?_some hp2
        have heq : (s1, s2) = (d, m) := by
          cases rest2 with
          | nil => dsimp only at hcont2; simpa using hcont2
          | cons c2 t2 =>
            dsimp only at hcont2
            by_cases hw : isWordC c2 = true
            · rw [if_pos hw] at hcont2; cases hcont2
            · rw [if_neg hw] at hcont2; simpa using hcont2
        injection heq with h1 h2
        subst h1; subst h2
        rcases hn1 with rfl | rfl <;> rcases hn2 with rfl | rfl <;>
          exact ⟨⟨by omega, by omega, hdig⟩, by omega, by omega, hdig2⟩
      · rw [if_neg hsep] at hcont; cases hcont

/-- Shape of the captures of `re.search` for the missing-year pattern. -/
theorem searchDMAux_shape {l : List Char} :
    ∀ {pw : Bool} {d m : List Char}, searchDMAux pw l = some (d, m) →
      (1 ≤ d.length ∧ d.length ≤ 2 ∧ d.all isDigitC = true) ∧
      (1 ≤ m.length ∧ m.length ≤ 2 ∧ m.all isDigitC = true) := by
  induction l with
  | nil => intro pw d m h; cases h
  | cons c t ih =>
    intro pw d m h
    rcases optionOrSome
        (show (matchDMAt pw (c :: t) <|> searchDMAux (isWordC c) t) = some (d, m) from h)
      with h' | h'
    · exact matchDMAt_shape h'
    · exact ih h'

/-! ## Helpers for the amount/date normalization proofs -/

/-- `dropWhile` is the identity when no element satisfies the predicate. -/
theorem dropWhile_all_false {p : Char → Bool} :
    ∀ {l : List Char}, (∀ c ∈ l, p c = false) → l.dropWhile p = l := by
  intro l h
  cases l with
  | nil => rfl
  | cons c t => exact List.dropWhile_cons_of_neg (by simp [h c (List.mem_cons_self c t)])

/-- `takeWhile` keeps everything when every element satisfies the
predicate. -/
theorem takeWhile_all_true {p : Char → Bool} :
    ∀ {l : List Char}, (∀ c ∈ l, p c = true) → l.takeWhile p = l := by
  intro l
  induction l with
  | nil => intro _; rfl
  | cons c t ih =>
    intro h
    rw [List.takeWhile_cons_of_pos (h c (List.mem_cons_self c t))]
    rw [ih fun d hd => h d (List.mem_cons_of_mem c hd)]

/-- `dropWhile` drops everything when every element satisfies the
predicate. -/
theorem dropWhile_all_true {p : Char → Bool} :
    ∀ {l : List Char}, (∀ c ∈ l, p c = true) → l.dropWhile p = [] := by
  intro l
  induction l with
  | nil => intro _; rfl
  | cons c t ih =>
    intro h
    rw [List.dropWhile_cons_of_pos (h c (List.mem_cons_self c t))]
    exact ih fun d hd => h d (List.mem_cons_of_mem c hd)

/-- Stripping a list with no whitespace is the identity. -/
theorem pyStrip_of_no_ws {l : List Char} (h : ∀ c ∈ l, pyWs c = false) : pyStrip l = l := by
  unfold pyStrip
  rw [dropWhile_all_false h, dropWhile_all_false fun c hc => h c (List.mem_reverse.mp hc),
    List.reverse_reverse]

/-- Stripping only removes characters. -/
theorem mem_pyStrip {l : List Char} {c : Char} (h : c ∈ pyStrip l) : c ∈ l := by
  unfold pyStrip at h
  rw [List.mem_reverse] at h
  have h2 := (List.dropWhile_sublist _).mem h
  rw [List.mem_reverse] at h2
  exact (List.dropWhile_sublist _).mem h2

/-- Nothing in a list of digit characters is a non-digit. -/
theorem not_mem_of_digits {l : List Char} (h : l.all isDigitC = true) {d : Char}
    (hd : isDigitC d = false) : d ∉ l := by
  intro hm
  have := List.all_eq_true.mp h d hm
  rw [this] at hd
  cases hd

/-- A character of the canonical digits-dot-digits list is a digit or the
dot. -/
theorem mem_digits_dot {a b : Nat} {c : Char}
    (h : c ∈ natDigits a ++ '.' :: pad2 b) (hb : b < 100) :
    isDigitC c = true ∨ c = '.' := by
  rcases List.mem_append.mp h with h' | h'
  · exact Or.inl (List.all_eq_true.mp (natDigits_all_digits a) c h')
  · rcases List.mem_cons.mp h' with h'' | h''
    · exact Or.inr h''
    · unfold pad2 at h''
      by_cases hlt : b < 10
      · rw [if_pos hlt] at h''
        rcases List.mem_cons.mp h'' with h3 | h3
        · exact Or.inl (by rw [h3]; decide)
        · rcases List.mem_singleton.mp h3 with rfl
          exact Or.inl (isDigitC_digitChar (by omega))
      · rw [if_neg hlt] at h''
        exact Or.inl (List.all_eq_true.mp (natDigits_all_digits b) c h'')

/-- `pad2` renders at most two digit characters. -/
theorem pad2_all_digits {b : Nat} (_hb : b < 100) : (pad2 b).all isDigitC = true := by
  unfold pad2
  by_cases hlt : b < 10
  · rw [if_pos hlt]
    simp [isDigitC_digitChar (show b < 10 from hlt), show isDigitC '0' = true by decide]
  · rw [if_neg hlt]
    exact natDigits_all_digits b

/-- `pad2` of a value below one hundred is two characters. -/
theorem pad2_length {b : Nat} (hb : b < 100) : (pad2 b).length = 2 := by
  unfold pad2
  by_cases hlt : b < 10
  · rw [if_pos hlt]; rfl
  · rw [if_neg hlt]
    exact natDigits_length_two (by omega) (by omega)

/-- Reading back `pad2` gives the value. -/
theorem natOfDigits_pad2 {b : Nat} (_hb : b < 100) : natOfDigits (pad2 b) = b := by
  unfold pad2
  by_cases hlt : b < 10
  · rw [if_pos hlt]
    simp [natOfDigits, digitVal_digitChar (show b < 10 from hlt),
      show digitVal '0' = 0 by decide]
  · rw [if_neg hlt]
    exact natOfDigits_natDigits b

/-- `pad2` is never empty. -/
theorem pad2_ne_nil (b : Nat) : pad2 b ≠ [] := by
  unfold pad2
  by_cases hlt : b < 10
  · rw [if_pos hlt]; simp
  · rw [if_neg hlt]; exact natDigits_ne_nil b

/-- One step of `splitOnCAux` on a cons cell. -/
theorem splitOnCAux_cons (c : Char) (r : List Char) (sep : Char) (acc : List Char) :
    splitOnCAux (c :: r) sep acc =
      if c = sep then acc.reverse :: splitOnCAux r sep [] else splitOnCAux r sep (c :: acc) :=
  rfl

/-- `splitOnCAux` on the empty list. -/
theorem splitOnCAux_nil (sep : Char) (acc : List Char) :
    splitOnCAux [] sep acc = [acc.reverse] := rfl

/-- Splitting a separator-free list yields a single fragment. -/
theorem splitOnCAux_no_sep {sep : Char} :
    ∀ {p : List Char} (acc : List Char), sep ∉ p →
      splitOnCAux p sep acc = [acc.reverse ++ p] := by
  intro p
  induction p with
  | nil => intro acc _; simp [splitOnCAux_nil]
  | cons c t ih =>
    intro acc h
    rw [splitOnCAux_cons, if_neg (fun e => h (by rw [← e]; exact List.mem_cons_self c t))]
    rw [ih (c :: acc) (fun hm => h (List.mem_cons_of_mem c hm))]
    simp

/-- Splitting at the first separator occurrence. -/
theorem splitOnCAux_sep {sep : Char} {rest : List Char} :
    ∀ {p : List Char} (acc : List Char), sep ∉ p →
      splitOnCAux (p ++ sep :: rest) sep acc =
        (acc.reverse ++ p) :: splitOnCAux rest sep [] := by
  intro p
  induction p with
  | nil =>
    intro acc _
    simp only [List.nil_append]
    rw [splitOnCAux_cons, if_pos rfl]
    simp
  | cons c t ih =>
    intro acc h
    rw [List.cons_append]
    rw [splitOnCAux_cons, if_neg (fun e => h (by rw [← e]; exact List.mem_cons_self c t))]
    rw [ih (c :: acc) (fun hm => h (List.mem_cons_of_mem c hm))]
    simp

/-- Splitting a three-fragment list on its separator. -/
theorem splitOnC_three {sep : Char} {p1 p2 p3 : List Char} (h1 : sep ∉ p1) (h2 : sep ∉ p2)
    (h3 : sep ∉ p3) :
    splitOnC sep (p1 ++ sep :: (p2 ++ sep :: p3)) = [p1, p2, p3] := by
  unfold splitOnC
  rw [splitOnCAux_sep _ h1, splitOnCAux_sep _ h2, splitOnCAux_no_sep _ h3]
  simp

/-- The sign scanner of the float model is the identity with sign `1` on a
string headed by a digit. -/
theorem pySign_digit_head {c : Char} {cs : List Char} (h1 : c ≠ '-') (h2 : c ≠ '+') :
    pySign (c :: cs) = (1, c :: cs) := by
  unfold pySign
  split
  · rename_i heq
    injection heq with he _
    exact absurd he h1
  · rename_i heq
    injection heq with he _
    exact absurd he h2
  · rfl

/-- The sign scanner returns `1` whenever the string contains no minus. -/
theorem pySign_fst_one {t : List Char} (h : '-' ∉ t) : (pySign t).1 = 1 := by
  unfold pySign
  split
  · exact absurd (List.mem_cons_self _ _) h
  · rfl
  · rfl

/-- With no exponent marker present the mantissa is the whole string. -/
theorem splitExp_no_e {l : List Char} (h : ∀ c ∈ l, (c == 'e' || c == 'E') = false) :
    splitExp l = (l, none) := by
  unfold splitExp
  rw [List.span_eq_take_drop _,
    takeWhile_all_true (fun c hc => by simp [h c hc]),
    dropWhile_all_true (fun c hc => by simp [h c hc])]

/-- `takeWhile not-dot` of a digits-dot-rest list is the digits. -/
theorem takeWhile_until_dot {d rest : List Char} (hd : ∀ c ∈ d, (c == '.') = false) :
    (d ++ '.' :: rest).takeWhile (fun c => !(c == '.')) = d := by
  induction d with
  | nil => exact List.takeWhile_cons_of_neg (by simp)
  | cons c t ih =>
    rw [List.cons_append,
      List.takeWhile_cons_of_pos (by simp [hd c (List.mem_cons_self c t)]),
      ih fun x hx => hd x (List.mem_cons_of_mem c hx)]

/-- `dropWhile not-dot` of a digits-dot-rest list starts at the dot. -/
theorem dropWhile_until_dot {d rest : List Char} (hd : ∀ c ∈ d, (c == '.') = false) :
    (d ++ '.' :: rest).dropWhile (fun c => !(c == '.')) = '.' :: rest := by
  induction d with
  | nil => exact List.dropWhile_cons_of_neg (by simp)
  | cons c t ih =>
    rw [List.cons_append,
      List.dropWhile_cons_of_pos (by simp [hd c (List.mem_cons_self c t)]),
      ih fun x hx => hd x (List.mem_cons_of_mem c hx)]

/-- The float model on the canonical digits-dot-digits string reads off the
exact value. -/
theorem pyFloat?_canonical (a b : Nat) (hb : b < 100) :
    pyFloat? (natDigits a ++ '.' :: pad2 b) = some ((a : ℚ) + (b : ℚ) / 100) := by
  have hmem : ∀ c ∈ natDigits a ++ '.' :: pad2 b, isDigitC c = true ∨ c = '.' :=
    fun c hc => mem_digits_dot hc hb
  have hno_ws : ∀ c ∈ natDigits a ++ '.' :: pad2 b, pyWs c = false := by
    intro c hc
    rcases hmem c hc with h | rfl
    · exact pyWs_digit h
    · decide
  have hno_e : ∀ c ∈ natDigits a ++ '.' :: pad2 b, (c == 'e' || c == 'E') = false := by
    intro c hc
    rcases hmem c hc with h | rfl
    · have h1 : (c == 'e') = false := beq_false_of_digit h (by decide)
      have h2 : (c == 'E') = false := beq_false_of_digit h (by decide)
      rw [h1, h2]
      rfl
    · decide
  have hnodot : ∀ c ∈ natDigits a, (c == '.') = false := by
    intro c hc
    exact beq_false_of_digit (List.all_eq_true.mp (natDigits_all_digits a) c hc) (by decide)
  unfold pyFloat?
  rw [pyStrip_of_no_ws hno_ws]
  dsimp only
  obtain ⟨c, cs, hcons⟩ : ∃ c cs, natDigits a = c :: cs := by
    cases hnd : natDigits a with
    | nil => exact absurd hnd (natDigits_ne_nil a)
    | cons x xs => exact ⟨x, xs, rfl⟩
  have hhead : isDigitC c = true := by
    have := natDigits_all_digits a
    rw [hcons] at this
    simp [List.all_cons] at this
    exact this.1
  have hsign : pySign (natDigits a ++ '.' :: pad2 b) = (1, natDigits a ++ '.' :: pad2 b) := by
    conv_lhs => rw [hcons, List.cons_append]
    rw [pySign_digit_head (digit_ne hhead (by decide)) (digit_ne hhead (by decide))]
    rw [hcons, List.cons_append]
  rw [hsign]
  dsimp only
  rw [splitExp_no_e hno_e]
  dsimp only
  have hspan : (natDigits a ++ '.' :: pad2 b).span (fun c => !(c == '.')) =
      (natDigits a, '.' :: pad2 b) := by
    rw [List.span_eq_take_drop _, takeWhile_until_dot hnodot, dropWhile_until_dot hnodot]
  rw [hspan]
  dsimp only
  have hdot2 : (pad2 b).contains '.' = false := by
    cases hcc : (pad2 b).contains '.'
    · rfl
    · exact absurd (List.elem_iff.mp hcc)
        (not_mem_of_digits (pad2_all_digits hb) (by decide))
  rw [hdot2]
  simp only [Bool.false_eq_true, if_false]
  rw [if_pos ⟨natDigits_all_digits a, pad2_all_digits hb, Or.inl (natDigits_ne_nil a)⟩]
  rw [natOfDigits_natDigits, natOfDigits_pad2 hb, pad2_length hb]
  norm_num

/-- The float model never returns a negative value on a minus-free
string. -/
theorem pyFloat?_nonneg {l : List Char} (hm : '-' ∉ l) {q : ℚ} (h : pyFloat? l = some q) :
    0 ≤ q := by
  unfold pyFloat? at h
  dsimp only at h
  have hm' : '-' ∉ pyStrip l := fun hx => hm (mem_pyStrip hx)
  rcases hps : pySign (pyStrip l) with ⟨sgn, t1⟩
  have hsgn : sgn = 1 := by
    have := pySign_fst_one hm'
    rw [hps] at this
    exact this
  subst hsgn
  rw [hps] at h
  dsimp only at h
  rcases hse : splitExp t1 with ⟨mant, ex⟩
  rw [hse] at h
  dsimp only at h
  rcases hsp : mant.span (fun c => !(c == '.')) with ⟨ip, rest⟩
  rw [hsp] at h
  dsimp only at h
  have hbase : ∀ fr : List Char,
      (0 : ℚ) ≤ (natOfDigits ip : ℚ) + (natOfDigits fr : ℚ) / (10 : ℚ) ^ fr.length := by
    intro fr
    have h1 : (0 : ℚ) ≤ (natOfDigits ip : ℚ) := Nat.cast_nonneg _
    have h2 : (0 : ℚ) ≤ (natOfDigits fr : ℚ) / (10 : ℚ) ^ fr.length :=
      div_nonneg (Nat.cast_nonneg _) (pow_nonneg (by norm_num) _)
    linarith
  have hfin : ∀ (fr : List Char),
      ((if ip.all isDigitC ∧ fr.all isDigitC ∧ (ip ≠ [] ∨ fr ≠ []) then
          match ex with
          | none => some ((1 : ℚ) *
              ((natOfDigits ip : ℚ) + (natOfDigits fr : ℚ) / (10 : ℚ) ^ fr.length))
          | some e =>
            match signedDigits? e with
            | none => none
            | some z => some ((1 : ℚ) *
                ((natOfDigits ip : ℚ) + (natOfDigits fr : ℚ) / (10 : ℚ) ^ fr.length) *
                (10 : ℚ) ^ z)
        else none) = some q) → 0 ≤ q := by
    intro fr hh
    split at hh
    · cases ex with
      | none =>
        dsimp only at hh
        injection hh with hh'
        rw [← hh', one_mul]
        exact hbase fr
      | some e =>
        dsimp only at hh
        cases hsd : signedDigits? e with
        | none => rw [hsd] at hh; cases hh
        | some z =>
          rw [hsd] at hh
          injection hh with hh'
          rw [← hh', one_mul]
          exact mul_nonneg (hbase fr) (zpow_nonneg (by norm_num) z)
    · cases hh
  cases rest with
  | nil =>
    dsimp only at h
    exact hfin [] h
  | cons c0 fr0 =>
    dsimp only at h
    by_cases hdot : fr0.contains '.' = true
    · rw [if_pos hdot] at h
      cases h
    · rw [if_neg hdot] at h
      dsimp only at h
      exact hfin fr0 h

/-- Rounding is exact on a value that is already a whole number of cents. -/
theorem roundCentsAbs_exact {q : ℚ} (hq : 0 ≤ q) {m : Nat} (hm : q * 100 = (m : ℚ)) :
    roundCentsAbs q = m := by
  have hd : 0 < q.den := q.pos
  have key : (q.num : ℚ) * 100 = (m : ℚ) * (q.den : ℚ) := by
    rw [← Rat.num_div_den q] at hm
    have hden0 : ((q.den : ℚ)) ≠ 0 := by
      exact_mod_cast Nat.pos_iff_ne_zero.mp hd
    field_simp at hm
    linarith [hm]
  have h0 : 0 ≤ q.num := Rat.num_nonneg.mpr hq
  have keyZ : q.num * 100 = (m : ℤ) * (q.den : ℤ) := by exact_mod_cast key
  have keyN : q.num.natAbs * 100 = m * q.den := by
    have hcast : ((q.num.natAbs * 100 : ℕ) : ℤ) = ((m * q.den : ℕ) : ℤ) := by
      push_cast
      rw [abs_of_nonneg h0]
      exact keyZ
    exact_mod_cast hcast
  unfold roundCentsAbs
  have h200 : 200 * q.num.natAbs + q.den = q.den * (2 * m + 1) := by
    calc 200 * q.num.natAbs + q.den = 2 * (q.num.natAbs * 100) + q.den := by ring
    _ = 2 * (m * q.den) + q.den := by rw [keyN]
    _ = q.den * (2 * m + 1) := by ring
  rw [h200, show 2 * q.den = q.den * 2 from Nat.mul_comm 2 q.den,
    Nat.mul_div_mul_left _ _ hd]
  omega

/-- Rounding ignores the sign of the value. -/
theorem roundCentsAbs_neg (q : ℚ) : roundCentsAbs (-q) = roundCentsAbs q := by
  unfold roundCentsAbs
  rw [Rat.neg_num, Rat.neg_den, Int.natAbs_neg]

/-- A character that is neither a digit nor a dot does not occur in the
canonical amount body. -/
theorem not_mem_body {a b : Nat} (hb : b < 100) (x : Char) (hx1 : isDigitC x = false)
    (hx2 : x ≠ '.') : x ∉ natDigits a ++ '.' :: pad2 b := by
  intro hx
  rcases mem_digits_dot hx hb with h | h
  · rw [hx1] at h
    cases h
  · exact hx2 h

/-- The canonical amount body is not empty. -/
theorem body_isEmpty_false (a b : Nat) : (natDigits a ++ '.' :: pad2 b).isEmpty = false := by
  cases hnd : natDigits a with
  | nil => exact absurd hnd (natDigits_ne_nil a)
  | cons x xs => rfl

/-- The canonical amount body contains no whitespace. -/
theorem body_no_ws {a b : Nat} (hb : b < 100) :
    ∀ c ∈ natDigits a ++ '.' :: pad2 b, pyWs c = false := by
  intro c hc
  rcases mem_digits_dot hc hb with h | rfl
  · exact pyWs_digit h
  · decide

/-- Every character of the canonical amount body survives the currency
filter. -/
theorem body_keep_currency {a b : Nat} (hb : b < 100) :
    ∀ c ∈ natDigits a ++ '.' :: pad2 b, (!currencyWs c) = true := by
  intro c hc
  rcases mem_digits_dot hc hb with h | rfl
  · rw [currencyWs_digit h]
    rfl
  · decide

/-- Every character of the canonical amount body survives the amount-char
filter. -/
theorem body_keep_amount {a b : Nat} (hb : b < 100) :
    ∀ c ∈ natDigits a ++ '.' :: pad2 b, amountChar c = true := by
  intro c hc
  rcases mem_digits_dot hc hb with h | rfl
  · exact amountChar_digit h
  · decide

/-- `contains` is `false` on the canonical body for a non-digit non-dot
character. -/
theorem body_contains_false {a b : Nat} (hb : b < 100) (x : Char) (hx1 : isDigitC x = false)
    (hx2 : x ≠ '.') : (natDigits a ++ '.' :: pad2 b).contains x = false := by
  cases hcc : (natDigits a ++ '.' :: pad2 b).contains x
  · rfl
  · exact absurd (List.elem_iff.mp hcc) (not_mem_body hb x hx1 hx2)

/-- Separator resolution is the identity on the comma-free canonical body. -/
theorem resolveSeparators_body (a b : Nat) (hb : b < 100) :
    resolveSeparators (natDigits a ++ '.' :: pad2 b) = natDigits a ++ '.' :: pad2 b := by
  unfold resolveSeparators
  rw [body_contains_false hb ',' (by decide) (by decide)]
  rw [if_neg (by simp), if_neg (by simp)]

/-- The canonical cents value is nonnegative. -/
theorem centsVal_nonneg (a b : Nat) : (0 : ℚ) ≤ (a : ℚ) + (b : ℚ) / 100 := by
  positivity

/-- The canonical cents value is positive unless both parts vanish. -/
theorem centsVal_pos {a b : Nat} (hnz : ¬(a = 0 ∧ b = 0)) :
    (0 : ℚ) < (a : ℚ) + (b : ℚ) / 100 := by
  rcases Nat.eq_zero_or_pos a with ha | ha
  · have hb0 : b ≠ 0 := fun h => hnz ⟨ha, h⟩
    have h1 : (0 : ℚ) < (b : ℚ) := by exact_mod_cast Nat.pos_of_ne_zero hb0
    have h2 : (0 : ℚ) < (b : ℚ) / 100 := div_pos h1 (by norm_num)
    have h3 : ((a : ℚ)) = 0 := by rw [ha]; norm_num
    linarith
  · have h1 : (0 : ℚ) < (a : ℚ) := by exact_mod_cast ha
    have h2 : (0 : ℚ) ≤ (b : ℚ) / 100 := by positivity
    linarith

/-- Rounding the canonical cents value recovers the cent count. -/
theorem roundCentsAbs_centsVal (a b : Nat) :
    roundCentsAbs ((a : ℚ) + (b : ℚ) / 100) = 100 * a + b :=
  roundCentsAbs_exact (centsVal_nonneg a b) (by push_cast; ring)

/-- Formatting the nonnegative canonical cents value reproduces the body. -/
theorem formatTwoL_centsVal {a b : Nat} (hb : b < 100) :
    formatTwoL ((a : ℚ) + (b : ℚ) / 100) = natDigits a ++ '.' :: pad2 b := by
  unfold formatTwoL
  dsimp only
  rw [if_neg (not_lt.mpr (centsVal_nonneg a b)), roundCentsAbs_centsVal,
    show (100 * a + b) / 100 = a from by omega, show (100 * a + b) % 100 = b from by omega,
    List.nil_append]

/-- Formatting the negated canonical cents value prepends the minus sign. -/
theorem formatTwoL_centsVal_neg {a b : Nat} (hb : b < 100) (hnz : ¬(a = 0 ∧ b = 0)) :
    formatTwoL (-((a : ℚ) + (b : ℚ) / 100)) = '-' :: (natDigits a ++ '.' :: pad2 b) := by
  unfold formatTwoL
  dsimp only
  rw [if_pos (neg_lt_zero.mpr (centsVal_pos hnz)), roundCentsAbs_neg, roundCentsAbs_centsVal,
    show (100 * a + b) / 100 = a from by omega, show (100 * a + b) % 100 = b from by omega]
  rfl

/-- `_normalize_amount` is the identity on a canonical nonnegative output
`A.BC`. -/
theorem normA_canon_pos (a b : Nat) (hb : b < 100) :
    normalizeAmountL (natDigits a ++ '.' :: pad2 b) = natDigits a ++ '.' :: pad2 b := by
  unfold normalizeAmountL
  rw [pyStrip_of_no_ws (body_no_ws hb), body_isEmpty_false a b]
  simp only [Bool.false_eq_true, if_false]
  rw [List.filter_eq_self.mpr (body_keep_currency hb)]
  rw [body_contains_false hb '-' (by decide) (by decide),
    body_contains_false hb '(' (by decide) (by decide)]
  rw [List.filter_eq_self.mpr (body_keep_amount hb), resolveSeparators_body a b hb,
    pyFloat?_canonical a b hb]
  dsimp only
  rw [if_neg (by simp)]
  exact formatTwoL_centsVal hb

/-- `_normalize_amount` is the identity on a canonical negative output
`-A.BC` with a nonzero value. -/
theorem normA_canon_negL (a b : Nat) (hb : b < 100) (hnz : ¬(a = 0 ∧ b = 0)) :
    normalizeAmountL ('-' :: (natDigits a ++ '.' :: pad2 b)) =
      '-' :: (natDigits a ++ '.' :: pad2 b) := by
  have hws : ∀ c ∈ '-' :: (natDigits a ++ '.' :: pad2 b), pyWs c = false := by
    intro c hc
    rcases List.mem_cons.mp hc with rfl | hc'
    · decide
    · exact body_no_ws hb c hc'
  have hkeep1 : ∀ c ∈ '-' :: (natDigits a ++ '.' :: pad2 b), (!currencyWs c) = true := by
    intro c hc
    rcases List.mem_cons.mp hc with rfl | hc'
    · decide
    · exact body_keep_currency hb c hc'
  unfold normalizeAmountL
  rw [pyStrip_of_no_ws hws]
  simp only [List.isEmpty_cons, Bool.false_eq_true, if_false]
  rw [List.filter_eq_self.mpr hkeep1]
  have hcm : (('-' :: (natDigits a ++ '.' :: pad2 b)).contains '-') = true := rfl
  rw [hcm]
  rw [List.filter_cons, show amountChar '-' = false from by decide]
  simp only [Bool.false_eq_true, if_false]
  rw [List.filter_eq_self.mpr (body_keep_amount hb), resolveSeparators_body a b hb,
    pyFloat?_canonical a b hb]
  dsimp only
  rw [if_pos ⟨by rfl, centsVal_pos hnz⟩]
  exact formatTwoL_centsVal_neg hb hnz

/-- Every value formatted by the two-decimal formatter has the canonical
sign–digits–dot–two-digits shape. -/
theorem formatTwoL_shape (q : ℚ) : ∃ (neg : Bool) (a b : Nat), b < 100 ∧
    formatTwoL q = (if neg then ['-'] else []) ++ natDigits a ++ '.' :: pad2 b := by
  refine ⟨decide (q < 0), roundCentsAbs q / 100, roundCentsAbs q % 100,
    Nat.mod_lt _ (by norm_num), ?_⟩
  unfold formatTwoL
  dsimp only
  by_cases h : q < 0
  · rw [if_pos h, if_pos (decide_eq_true h)]
  · rw [if_neg h, if_neg (by simp [h])]

/-- `_normalize_amount` returns the empty string or a formatted value. -/
theorem normalizeAmountL_eq (l : List Char) :
    normalizeAmountL l = [] ∨ ∃ q : ℚ, normalizeAmountL l = formatTwoL q := by
  unfold normalizeAmountL
  split
  · exact Or.inl rfl
  · dsimp only
    cases hq : pyFloat? (resolveSeparators
        (List.filter amountChar (List.filter (fun c => !currencyWs c) (pyStrip l)))) with
    | none => exact Or.inl rfl
    | some q => exact Or.inr ⟨_, rfl⟩

/-- The amount-character filter keeps exactly digits, commas and dots. -/
theorem amountChar_cases {c : Char} (h : amountChar c = true) :
    isDigitC c = true ∨ c = ',' ∨ c = '.' := by
  unfold amountChar at h
  simp only [Bool.or_eq_true, beq_iff_eq] at h
  tauto

/-- The first separator met after a comma-free prefix ending at a dot is the
dot. -/
theorem find?_sep_dot {w rest : List Char} (hw : ',' ∉ w) :
    (w ++ '.' :: rest).find? (fun c => c == '.' || c == ',') = some '.' := by
  induction w with
  | nil => exact List.find?_cons_of_pos _ (by decide)
  | cons c t ih =>
    by_cases hc : (c == '.' || c == ',') = true
    · have hcd : c = '.' := by
        rcases Bool.or_eq_true_iff.mp hc with h | h
        · exact eq_of_beq h
        · exact absurd (eq_of_beq h ▸ List.mem_cons_self c t) hw
      subst hcd
      exact List.find?_cons_of_pos _ (by decide)
    · rw [List.cons_append, List.find?_cons_of_neg _ (by simpa using hc)]
      exact ih (fun h => hw (List.mem_cons_of_mem c h))

/-- The first separator met after a dot-free prefix ending at a comma is the
comma. -/
theorem find?_sep_comma {w rest : List Char} (hw : '.' ∉ w) :
    (w ++ ',' :: rest).find? (fun c => c == '.' || c == ',') = some ',' := by
  induction w with
  | nil => exact List.find?_cons_of_pos _ (by decide)
  | cons c t ih =>
    by_cases hc : (c == '.' || c == ',') = true
    · have hcd : c = ',' := by
        rcases Bool.or_eq_true_iff.mp hc with h | h
        · exact absurd (eq_of_beq h ▸ List.mem_cons_self c t) hw
        · exact eq_of_beq h
      subst hcd
      exact List.find?_cons_of_pos _ (by decide)
    · rw [List.cons_append, List.find?_cons_of_neg _ (by simpa using hc)]
      exact ih (fun h => hw (List.mem_cons_of_mem c h))

/-- A dot with no later comma makes the rightmost separator a dot. -/
theorem lastSepDot_of_dot {u v : List Char} (hv : ',' ∉ v) :
    lastSepDot (u ++ '.' :: v) = true := by
  unfold lastSepDot
  rw [List.reverse_append, List.reverse_cons, List.append_assoc, List.singleton_append,
    find?_sep_dot (fun h => hv (List.mem_reverse.mp h))]
  rfl

/-- A comma with no later dot makes the rightmost separator a comma. -/
theorem lastSepDot_of_comma {u v : List Char} (hv : '.' ∉ v) :
    lastSepDot (u ++ ',' :: v) = false := by
  unfold lastSepDot
  rw [List.reverse_append, List.reverse_cons, List.append_assoc, List.singleton_append,
    find?_sep_comma (fun h => hv (List.mem_reverse.mp h))]
  rfl

/-- `dropWhile` up to the first comma lands on the comma. -/
theorem dropWhile_until_comma {d rest : List Char} (hd : ',' ∉ d) :
    (d ++ ',' :: rest).dropWhile (fun c => c ≠ ',') = ',' :: rest := by
  induction d with
  | nil => exact List.dropWhile_cons_of_neg (by simp)
  | cons c t ih =>
    have hcne : c ≠ ',' := fun h => hd (h ▸ List.mem_cons_self c t)
    rw [List.cons_append, List.dropWhile_cons_of_pos (by simp [hcne]),
      ih (fun h => hd (List.mem_cons_of_mem c h))]

/-- A list containing a comma splits at its first comma. -/
theorem comma_decomp {l : List Char} (h : ',' ∈ l) :
    ∃ p q, l = p ++ ',' :: q ∧ ',' ∉ p ∧
      l.dropWhile (fun c => c ≠ ',') = ',' :: q := by
  induction l with
  | nil => cases h
  | cons c t ih =>
    by_cases hc : c = ','
    · subst hc
      exact ⟨[], t, rfl, by simp, List.dropWhile_cons_of_neg (by simp)⟩
    · have ht : ',' ∈ t := by
        rcases List.mem_cons.mp h with h' | h'
        · exact absurd h'.symm hc
        · exact h'
      obtain ⟨p, q, he, hp, hdw⟩ := ih ht
      refine ⟨c :: p, q, by rw [he]; rfl, ?_, ?_⟩
      · intro hm
        rcases List.mem_cons.mp hm with h' | h'
        · exact hc h'.symm
        · exact hp h'
      · rw [List.dropWhile_cons_of_pos (by simp [hc]), hdw]

/-- No month has more than 31 days. -/
theorem daysInMonth_le (y m : Nat) : daysInMonth y m ≤ 31 := by
  unfold daysInMonth
  split
  · split <;> omega
  · split <;> omega

/-- The day/month field accepts a zero-padded in-range value. -/
theorem parseNumPart_pad2 {v lo hi : Nat} (hv : v < 100) (h1 : lo ≤ v) (h2 : v ≤ hi) :
    parseNumPart (pad2 v) lo hi = some v := by
  unfold parseNumPart
  rw [natOfDigits_pad2 hv]
  exact if_pos ⟨pad2_ne_nil v, le_of_eq (pad2_length hv), pad2_all_digits hv, h1, h2⟩

/-- The four-digit year field accepts a rendered four-digit year. -/
theorem parseYearPart_natDigits {y : Nat} (h1 : 1000 ≤ y) (h2 : y ≤ 9999) :
    parseYearPart (natDigits y) true = some y := by
  unfold parseYearPart
  rw [if_pos rfl, natOfDigits_natDigits]
  exact if_pos ⟨natDigits_length_four h1 h2, natDigits_all_digits y, by omega⟩

/-- `strptime` with the slash day-first format inverts `strftime` on a
calendar-valid date. -/
theorem strptimeDMY_canonical {d m y : Nat} (hm1 : 1 ≤ m) (hm2 : m ≤ 12) (hd1 : 1 ≤ d)
    (hd2 : d ≤ daysInMonth y m) (hy1 : 1000 ≤ y) (hy2 : y ≤ 9999) :
    strptimeDMY (strftimeDMY d m y) '/' true = some (d, m, y) := by
  have hd31 : d ≤ 31 := le_trans hd2 (daysInMonth_le y m)
  have hd100 : d < 100 := by omega
  have hm100 : m < 100 := by omega
  unfold strptimeDMY strftimeDMY
  rw [List.append_assoc, List.cons_append]
  rw [splitOnC_three
    (not_mem_of_digits (pad2_all_digits hd100) (show isDigitC '/' = false from by decide))
    (not_mem_of_digits (pad2_all_digits hm100) (show isDigitC '/' = false from by decide))
    (not_mem_of_digits (natDigits_all_digits y) (show isDigitC '/' = false from by decide))]
  dsimp only
  rw [parseNumPart_pad2 hd100 hd1 hd31, parseNumPart_pad2 hm100 hm1 hm2,
    parseYearPart_natDigits hy1 hy2]
  dsimp only
  rw [if_pos hd2]

/-- Both branches of `pad2` produce digit characters, for any value. -/
theorem pad2_all_digits_any (b : Nat) : (pad2 b).all isDigitC = true := by
  unfold pad2
  by_cases hlt : b < 10
  · rw [if_pos hlt]
    simp [isDigitC_digitChar hlt, show isDigitC '0' = true by decide]
  · rw [if_neg hlt]
    exact natDigits_all_digits b

/-- The rendered date contains no whitespace. -/
theorem strftimeDMY_no_ws (d m y : Nat) : ∀ c ∈ strftimeDMY d m y, pyWs c = false := by
  intro c hc
  unfold strftimeDMY at hc
  rcases List.mem_append.mp hc with h | h
  · rcases List.mem_append.mp h with h2 | h2
    · exact pyWs_digit (List.all_eq_true.mp (pad2_all_digits_any d) c h2)
    · rcases List.mem_cons.mp h2 with rfl | h3
      · decide
      · exact pyWs_digit (List.all_eq_true.mp (pad2_all_digits_any m) c h3)
  · rcases List.mem_cons.mp h with rfl | h'
    · decide
    · exact pyWs_digit (List.all_eq_true.mp (natDigits_all_digits y) c h')

/-- The rendered date is not the empty string. -/
theorem strftimeDMY_isEmpty_false (d m y : Nat) : (strftimeDMY d m y).isEmpty = false := by
  unfold strftimeDMY
  cases hp : pad2 d with
  | nil => exact absurd hp (pad2_ne_nil d)
  | cons x xs => rfl

/-- `_normalize_date` is the identity on a rendered calendar-valid date. -/
theorem normalizeDate_canonical {d m y : Nat} (hm1 : 1 ≤ m) (hm2 : m ≤ 12) (hd1 : 1 ≤ d)
    (hd2 : d ≤ daysInMonth y m) (hy1 : 1000 ≤ y) (hy2 : y ≤ 9999) :
    normalizeDateL (strftimeDMY d m y) = strftimeDMY d m y := by
  have ht : tryDateFormats (strftimeDMY d m y) = some (d, m, y) := by
    unfold tryDateFormats
    rw [strptimeDMY_canonical hm1 hm2 hd1 hd2 hy1 hy2]
    rfl
  unfold normalizeDateL
  rw [pyStrip_of_no_ws (strftimeDMY_no_ws d m y)]
  rw [if_neg (by simp [strftimeDMY_isEmpty_false d m y])]
  dsimp only
  rw [ht]

/-! ## Claim C10 -/

/-- C10: a non-empty `balance` alone satisfies the validator's amount
condition — a record with empty `debit` and `credit` but non-empty
`balance` is treated as having an amount, so together with a date or a
description (`_is_valid_transaction`'s two acceptance clauses) it is
accepted. -/
theorem c10_balance_satisfies_amount (t : Txn) (_hd : t.debit = "") (_hc : t.credit = "")
    (hb : t.balance ≠ "") (h : t.date ≠ "" ∨ t.description ≠ "") :
    isValidTransaction t = true := by
  unfold isValidTransaction
  rcases h with h | h <;> simp [isEmpty_false h, isEmpty_false hb]

/-- Witness for C10: a record carrying only a date and a balance is
accepted. -/
theorem c10_witness :
    isValidTransaction { date := "01/01/2024", balance := "100.00" } = true :=
  c10_balance_satisfies_amount _ rfl rfl (by decide) (Or.inl (by decide))

/-! ## Claim C1 -/

/-- C1 counterexample: on a raw record whose debit and credit are both
positive amounts, `_process_transaction` returns both columns non-empty,
so the sign-correction pass does not enforce mutual exclusivity on
arbitrary input. -/
theorem c1_counterexample :
    (processTransaction { date := "01/01/2024", description := "Pay",
                          debit := "100.00", credit := "50.00" }).debit ≠ "" ∧
    (processTransaction { date := "01/01/2024", description := "Pay",
                          debit := "100.00", credit := "50.00" }).credit ≠ "" := by
  decide

/-- C1 (amended): the sign-correction pass guarantees that at most one of
`debit` and `credit` is non-empty for every input record in which the raw
debit or the raw credit normalizes to the empty string, or either raw
column carries a negative marker (`'-'` or `'('`); when both columns
normalize to non-empty values and neither carries a marker, both are
returned. -/
theorem c1_exclusive_unless_two_positives (t : Txn)
    (h : normalizeAmountL t.debit.data = [] ∨ normalizeAmountL t.credit.data = [] ∨
         (t.debit.data.contains '-' || t.debit.data.contains '(') = true ∨
         (t.credit.data.contains '-' || t.credit.data.contains '(') = true) :
    (processTransaction t).debit = "" ∨ (processTransaction t).credit = "" := by
  have key : ∀ (negD negC : Bool) (nD nC : List Char),
      nD = [] ∨ nC = [] ∨ negD = true ∨ negC = true →
      (columnGuard negD negC nD nC).1 = [] ∨ (columnGuard negD negC nD nC).2 = [] := by
    intro negD negC nD nC hh
    unfold columnGuard
    split_ifs with h1 hd1 h2
    · exact Or.inr rfl
    · exact Or.inr rfl
    · exact Or.inr rfl
    · rcases hh with hh | hh | hh | hh
      · exact Or.inl hh
      · exact Or.inr hh
      · exact Or.inl (by by_contra hne; exact h2 ⟨hh, hne⟩)
      · exact Or.inr (by by_contra hne; exact h1 (Or.inl ⟨hh, hne⟩))
  have hd : (processTransaction t).debit =
      String.mk (columnGuard (t.debit.data.contains '-' || t.debit.data.contains '(')
        (t.credit.data.contains '-' || t.credit.data.contains '(')
        (normalizeAmountL t.debit.data) (normalizeAmountL t.credit.data)).1 := rfl
  have hc : (processTransaction t).credit =
      String.mk (columnGuard (t.debit.data.contains '-' || t.debit.data.contains '(')
        (t.credit.data.contains '-' || t.credit.data.contains '(')
        (normalizeAmountL t.debit.data) (normalizeAmountL t.credit.data)).2 := rfl
  rw [hd, hc, mk_eq_empty, mk_eq_empty]
  apply key
  rcases h with h | h | h | h
  · exact Or.inl h
  · exact Or.inr (Or.inl h)
  · exact Or.inr (Or.inr (Or.inl h))
  · exact Or.inr (Or.inr (Or.inr h))

/-- Witness for C1: a record with only a debit set comes back with an empty
credit. -/
theorem c1_witness :
    (processTransaction { debit := "100.00" }).debit = "" ∨
    (processTransaction { debit := "100.00" }).credit = "" :=
  c1_exclusive_unless_two_positives _ (Or.inr (Or.inl (by decide)))

/-! ## Claim C8 -/

/-- C8: `get_summary` iterates `self.transactions` — the raw list the
processor was constructed with — not the processed/validated output of
`process`, contradicting its own docstring ("summary statistics of
processed transactions") and the spec.  On a raw record whose credit is
`"1 200,00"`, `float` fails and the credit is skipped, giving
`total_credits = "0.00"`, while the accepted normalized set would give
`"1200.00"`. -/
theorem c8_summary_over_raw_not_processed :
    (getSummary [{ date := "01/01/2024", description := "Payment",
                   credit := "1 200,00" }]).totalCredits = "0.00" ∧
    (getSummary (process [{ date := "01/01/2024", description := "Payment",
                            credit := "1 200,00" }])).totalCredits = "1200.00" ∧
    process [{ date := "01/01/2024", description := "Payment", credit := "1 200,00" }] =
      [{ date := "01/01/2024", description := "Payment", reference := "",
         debit := "", credit := "1200.00", balance := "" }] := by
  decide

/-! ## Claim C4 -/

/-- C4 counterexample: the month-abbreviation branch of `_find_date`
performs no day validation — the malformed token `"42 Jun"` (day value 42)
is returned as a date instead of none. -/
theorem c4_counterexample : findDate "42 Jun" 2024 = some "42/06/2024" := by decide

/-- C4 (amended): the two numeric branches of `_find_date` (full numeric
date, and numeric date missing its year) reject any candidate with day
outside `[1, 31]` or month outside `[1, 12]` — whatever date they return
renders a day and month within those bounds — but the day-plus-month-
abbreviation branch validates only the month name, so a malformed token
such as `"42 Jun"` is returned as `"42/06/<year>"` rather than rejected. -/
theorem c4_numeric_bounds_abbrev_unchecked :
    (∀ t s, findDateB1 t = some s →
        ∃ d m rest, s = pad2 d ++ '/' :: pad2 m ++ '/' :: rest ∧
          1 ≤ d ∧ d ≤ 31 ∧ 1 ≤ m ∧ m ≤ 12) ∧
    (∀ t y s, findDateB2 t y = some s →
        ∃ d m rest, s = pad2 d ++ '/' :: pad2 m ++ '/' :: rest ∧
          1 ≤ d ∧ d ≤ 31 ∧ 1 ≤ m ∧ m ≤ 12) ∧
    findDateB3 "42 Jun".data 2024 = some "42/06/2024".data := by
  refine ⟨?_, ?_, by decide⟩
  · intro t s h
    unfold findDateB1 at h
    cases hs : searchDMY t with
    | none => rw [hs] at h; cases h
    | some v =>
      obtain ⟨d0, m0, y0⟩ := v
      rw [hs] at h
      dsimp only at h
      by_cases hc : 1 ≤ natOfDigits d0 ∧ natOfDigits d0 ≤ 31 ∧
          1 ≤ natOfDigits m0 ∧ natOfDigits m0 ≤ 12
      · rw [if_pos hc] at h
        injection h with h'
        subst h'
        obtain ⟨⟨hd1, hd2, hdall⟩, hm1, hm2, hmall⟩ := searchDMY_shape hs
        refine ⟨natOfDigits d0, natOfDigits m0,
          (if y0.length = 2 then '2' :: '0' :: y0 else y0), ?_,
          hc.1, hc.2.1, hc.2.2.1, hc.2.2.2⟩
        rw [pad2_natOfDigits_eq_zfill2 hd1 hd2 hdall,
          pad2_natOfDigits_eq_zfill2 hm1 hm2 hmall]
      · rw [if_neg hc] at h; cases h
  · intro t y s h
    unfold findDateB2 at h
    cases hs : searchDM t with
    | none => rw [hs] at h; cases h
    | some v =>
      obtain ⟨d0, m0⟩ := v
      rw [hs] at h
      dsimp only at h
      by_cases hc : 1 ≤ natOfDigits d0 ∧ natOfDigits d0 ≤ 31 ∧
          1 ≤ natOfDigits m0 ∧ natOfDigits m0 ≤ 12
      · rw [if_pos hc] at h
        injection h with h'
        subst h'
        exact ⟨natOfDigits d0, natOfDigits m0, _, rfl, hc.1, hc.2.1, hc.2.2.1, hc.2.2.2⟩
      · rw [if_neg hc] at h; cases h

/-- Witness for the amended C4: the full-numeric branch on `"25/06/2024"`
returns a bounds-validated day and month. -/
theorem c4_witness :
    ∃ d m rest, ("25/06/2024".data : List Char) = pad2 d ++ '/' :: pad2 m ++ '/' :: rest ∧
      1 ≤ d ∧ d ≤ 31 ∧ 1 ≤ m ∧ m ≤ 12 :=
  c4_numeric_bounds_abbrev_unchecked.1 "25/06/2024".data "25/06/2024".data (by decide)

/-! ## Claim C5 -/

/-- C5 counterexample: duplicate signatures inside the visual candidate
list are not removed — two identical visual candidates are both kept, so
the merged list can contain two records with identical signature. -/
theorem c5_counterexample :
    ¬ ((mergeCandidates
          [{ date := "01/01/2024", description := "A", debit := "10.00" },
           { date := "01/01/2024", description := "A", debit := "10.00" }] []).map sigOf).Nodup := by
  decide

/-- The visual pass of the merge appends every kept candidate and records
its signature. -/
theorem mergeVisual_foldl (visual : List Txn) :
    ∀ acc seen, visual.foldl
        (fun (p : List Txn × List String) t =>
          if hasAmt t then (p.1 ++ [t], p.2 ++ [sigOf t]) else p) (acc, seen) =
      (acc ++ visual.filter hasAmt, seen ++ (visual.filter hasAmt).map sigOf) := by
  induction visual with
  | nil => intro acc seen; simp
  | cons t ts ih =>
    intro acc seen
    simp only [List.foldl_cons]
    by_cases h : hasAmt t = true
    · rw [if_pos h, ih, List.filter_cons_of_pos h]
      simp
    · rw [if_neg h, ih, List.filter_cons_of_neg (by simpa using h)]

/-- The text pass appends exactly the candidates with an amount whose
signature is not among the recorded ones. -/
theorem mergeText_foldl (text : List Txn) (seen : List String) :
    ∀ acc, text.foldl
        (fun (a : List Txn) t => if hasAmt t ∧ sigOf t ∉ seen then a ++ [t] else a) acc =
      acc ++ text.filter (fun t => hasAmt t && !seen.contains (sigOf t)) := by
  induction text with
  | nil => intro acc; simp
  | cons t ts ih =>
    intro acc
    simp only [List.foldl_cons]
    by_cases h : hasAmt t = true ∧ sigOf t ∉ seen
    · rw [if_pos h, ih, List.filter_cons_of_pos (by simp [h.1, List.contains, List.elem_iff, h.2])]
      simp
    · rw [if_neg h, ih, List.filter_cons_of_neg ?_]
      simp only [Bool.and_eq_true, Bool.not_eq_true', not_and]
      intro hc
      by_cases ha : hasAmt t = true
      · have hm : sigOf t ∈ seen := by
          by_contra hnm
          exact h ⟨ha, hnm⟩
        simp [ha, List.contains, List.elem_iff, hm] at hc ⊢
      · simp [ha] at hc

/-- C5 (amended): every visual candidate with a non-empty debit-or-credit
is kept, in order and with duplicates retained, and its signature recorded;
a text candidate with a non-empty debit-or-credit is appended exactly when
its signature differs from every kept visual candidate's signature (visual
wins visual/text ties); duplicate signatures within the visual list, or
within the text list, are not removed. -/
theorem c5_amended (visual text : List Txn) :
    mergeCandidates visual text =
      visual.filter hasAmt ++
        text.filter (fun t =>
          hasAmt t && !((visual.filter hasAmt).map sigOf).contains (sigOf t)) := by
  unfold mergeCandidates
  rw [mergeVisual_foldl visual [] []]
  simp only [List.nil_append]
  exact mergeText_foldl text ((visual.filter hasAmt).map sigOf) (visual.filter hasAmt)

/-! ## Claim C2 -/

/-- `amtVal` of the empty token is zero (`float('')` raises, and the
classifier counts an unconvertible token as `0.0`). -/
theorem amtVal_empty : amtVal "" = 0 := by decide

/-- Zipping a list with its mapped values is mapping to pairs. -/
theorem zip_self_map {α β : Type} (l : List α) (f : α → β) :
    l.zip (l.map f) = l.map fun a => (a, f a) := by
  induction l with
  | nil => rfl
  | cons a t ih => simp [ih]

/-- The debit slot of the classifier loop is the last negative-valued
token, or the initial debit if none occurs. -/
theorem classifyLoop_fst (l : List String) :
    ∀ d c, (classifyLoop (l.map fun a => (a, amtVal a)) d c).1 = (lastNegStr l).getD d := by
  induction l with
  | nil => intro d c; rfl
  | cons a rest ih =>
    intro d c
    simp only [List.map_cons, classifyLoop, lastNegStr]
    by_cases h : amtVal a < 0
    · rw [if_pos h, if_pos h, ih]
      cases lastNegStr rest <;> simp
    · rw [if_neg h, if_neg h]
      by_cases h2 : 0 < amtVal a
      · rw [if_pos h2, ih]
        cases lastNegStr rest <;> simp
      · rw [if_neg h2]
        by_cases h3 : d = "" ∧ c = ""
        · rw [if_pos h3, ih]
          cases lastNegStr rest <;> simp
        · rw [if_neg h3, ih]
          cases lastNegStr rest <;> simp

/-- A leading negative token empties the zero-rule prefix. -/
theorem firstZeroStr_cons_neg {a : String} {rest : List String} (h : amtVal a < 0) :
    firstZeroStr (a :: rest) = none := by
  unfold firstZeroStr
  rw [List.takeWhile_cons_of_neg (by simp [h])]
  rfl

/-- A leading empty zero-valued token is skipped by the zero rule. -/
theorem firstZeroStr_cons_empty {a : String} {rest : List String} (h : ¬ amtVal a < 0)
    (ha : a = "") : firstZeroStr (a :: rest) = firstZeroStr rest := by
  unfold firstZeroStr
  rw [List.takeWhile_cons_of_pos (by simp [h]), List.find?_cons_of_neg _ (by simp [ha])]

/-- A leading non-empty non-negative token is what the zero rule finds. -/
theorem firstZeroStr_cons_found {a : String} {rest : List String} (h : ¬ amtVal a < 0)
    (ha : a ≠ "") : firstZeroStr (a :: rest) = some a := by
  unfold firstZeroStr
  rw [List.takeWhile_cons_of_pos (by simp [h]), List.find?_cons_of_pos _ (by simp [ha])]

/-- The credit slot of the classifier loop: the last positive token wins;
with no positive token, the zero rule fills an empty credit (while the
debit is still empty) with the first non-empty zero-valued token. -/
theorem classifyLoop_snd (l : List String) :
    ∀ d c, (classifyLoop (l.map fun a => (a, amtVal a)) d c).2 =
      (match lastPosStr l with
       | some a => a
       | none => if d = "" ∧ c = "" then (firstZeroStr l).getD c else c) := by
  induction l with
  | nil =>
    intro d c
    by_cases h3 : d = "" ∧ c = ""
    · simp [classifyLoop, lastPosStr, firstZeroStr, h3]
    · simp [classifyLoop, lastPosStr, firstZeroStr, h3]
  | cons a rest ih =>
    intro d c
    have hne : ∀ x : String, amtVal x ≠ 0 → x ≠ "" := by
      intro x hx he
      rw [he, amtVal_empty] at hx
      exact hx rfl
    simp only [List.map_cons, classifyLoop, lastPosStr]
    by_cases h : amtVal a < 0
    · have ha : a ≠ "" := hne a (by intro e; rw [e] at h; exact absurd h (by norm_num))
      rw [if_pos h, if_neg (by simp [not_lt.mpr (le_of_lt h)] : ¬ 0 < amtVal a), ih]
      cases hlp : lastPosStr rest
      · simp only [Option.none_orElse]
        rw [if_neg (by intro hc; exact ha hc.1), firstZeroStr_cons_neg h]
        by_cases h3 : d = "" ∧ c = ""
        · rw [if_pos h3]; rfl
        · rw [if_neg h3]
      · simp
    · rw [if_neg h]
      by_cases h2 : 0 < amtVal a
      · have ha : a ≠ "" := hne a (by intro e; rw [e] at h2; exact absurd h2 (by norm_num))
        rw [if_pos h2, if_pos h2, ih]
        cases hlp : lastPosStr rest
        · simp only [Option.none_orElse]
          rw [if_neg (by intro hc; exact ha hc.2)]
        · simp
      · rw [if_neg h2, if_neg h2]
        by_cases h3 : d = "" ∧ c = ""
        · rw [if_pos h3, ih]
          cases hlp : lastPosStr rest
          · simp only [Option.none_orElse]
            by_cases ha : a = ""
            · rw [if_pos ⟨h3.1, ha⟩, if_pos h3, firstZeroStr_cons_empty h ha, h3.2, ha]
            · rw [if_neg (fun hc => ha hc.2), if_pos h3, firstZeroStr_cons_found h ha]
              rfl
          · simp
        · rw [if_neg h3, ih]
          cases hlp : lastPosStr rest
          · simp only [Option.none_orElse]
            rw [if_neg h3, if_neg h3]
          · simp

/-- C2: the classifier takes the last token as balance when the row has at
least two tokens (no balance for a single token); each remaining candidate
goes to debit when its value is negative and to credit when positive, the
raw string retained and a later token of the same sign overwriting an
earlier one; a zero-valued candidate lands in credit only when neither
slot is yet filled. -/
theorem c2_classifier (amounts : List String) (h : amounts ≠ []) :
    (2 ≤ amounts.length → (classifyAmounts amounts).2.2 = amounts.getLast h) ∧
    (amounts.length = 1 → (classifyAmounts amounts).2.2 = "") ∧
    (classifyAmounts amounts).1 = (lastNegStr (txCandidates amounts)).getD "" ∧
    (classifyAmounts amounts).2.1 = specCredit (txCandidates amounts) := by
  have hne : amounts.isEmpty = false := by
    cases amounts
    · exact absurd rfl h
    · rfl
  unfold classifyAmounts txCandidates
  rw [hne]
  simp only [Bool.false_eq_true, if_false]
  by_cases hlen : 2 ≤ amounts.length
  · rw [if_pos hlen, if_pos hlen]
    have hdl : (amounts.map amtVal).dropLast = amounts.dropLast.map amtVal := by
      rw [← List.map_dropLast]
    dsimp only
    rw [hdl, zip_self_map, classifyLoop_fst, classifyLoop_snd]
    refine ⟨fun _ => ?_, fun h1 => by omega, rfl, ?_⟩
    · simp [List.getLast?_eq_getLast _ h]
    · unfold specCredit
      rfl
  · rw [if_neg hlen, if_neg hlen]
    dsimp only
    rw [zip_self_map, classifyLoop_fst, classifyLoop_snd]
    refine ⟨fun h2 => absurd h2 hlen, fun _ => rfl, rfl, ?_⟩
    unfold specCredit
    rfl

/-- Witness for C2 (the spec's tie-break example): tokens
`["1 200,00", "250,00"]` give balance `"250,00"`, credit `"1 200,00"`
(the raw string), debit empty. -/
theorem c2_witness :
    (classifyAmounts ["1 200,00", "250,00"]).2.2 = "250,00" ∧
    (classifyAmounts ["1 200,00", "250,00"]).1 = "" ∧
    (classifyAmounts ["1 200,00", "250,00"]).2.1 = "1 200,00" := by
  have hthm := c2_classifier ["1 200,00", "250,00"] (by decide)
  refine ⟨?_, ?_, ?_⟩
  · have := hthm.1 (by decide)
    simpa using this
  · have := hthm.2.2.1
    rw [this]
    decide
  · have := hthm.2.2.2
    rw [this]
    decide

/-! ## Claim C6 -/

/-- C6 counterexample: a row with a non-empty date that fails to parse
(`"99/99/9999"`) makes the sort key raise, so the whole sort is abandoned
and the row stays *before* the dated row — it is not placed after all dated
rows. -/
theorem c6_counterexample :
    sortTransactions
        [{ date := "99/99/9999", description := "bad", debit := "1.00" },
         { date := "01/01/2024", description := "good", debit := "2.00" }] =
      [{ date := "99/99/9999", description := "bad", debit := "1.00" },
       { date := "01/01/2024", description := "good", debit := "2.00" }] := by
  decide

/-- Generalized digit-accumulator bound. -/
theorem natOfDigits_aux_lt :
    ∀ (l : List Char), l.all isDigitC = true →
      ∀ acc, l.foldl (fun a c => 10 * a + digitVal c) acc < (acc + 1) * 10 ^ l.length := by
  intro l
  induction l with
  | nil => intro _ acc; simp
  | cons c t ih =>
    intro h acc
    simp only [List.all_cons, Bool.and_eq_true] at h
    have hd : digitVal c < 10 := digitVal_lt h.1
    simp only [List.foldl_cons, List.length_cons]
    calc t.foldl (fun a c => 10 * a + digitVal c) (10 * acc + digitVal c)
        < (10 * acc + digitVal c + 1) * 10 ^ t.length := ih h.2 _
      _ ≤ ((acc + 1) * 10) * 10 ^ t.length :=
          Nat.mul_le_mul_right _ (by omega)
      _ = (acc + 1) * 10 ^ (t.length + 1) := by ring

/-- A list of digit characters reads below `10 ^ length`. -/
theorem natOfDigits_lt (l : List Char) (h : l.all isDigitC = true) :
    natOfDigits l < 10 ^ l.length := by
  have := natOfDigits_aux_lt l h 0
  simpa [natOfDigits] using this

/-- Bounds of a successful `parseNumPart`. -/
theorem parseNumPart_some {l : List Char} {lo hi v : Nat}
    (h : parseNumPart l lo hi = some v) : lo ≤ v ∧ v ≤ hi := by
  unfold parseNumPart at h
  split at h
  · rename_i hc
    injection h with h'
    subst h'
    exact ⟨hc.2.2.2.1, hc.2.2.2.2⟩
  · cases h

/-- Bounds of a successful four-digit `parseYearPart`. -/
theorem parseYearPart_some {l : List Char} {y : Nat}
    (h : parseYearPart l true = some y) : 1 ≤ y ∧ y ≤ 9999 := by
  unfold parseYearPart at h
  simp only [if_true] at h
  split at h
  · rename_i hc
    injection h with h'
    subst h'
    refine ⟨hc.2.2, ?_⟩
    have := natOfDigits_lt l hc.2.1
    rw [hc.1] at this
    omega
  · cases h

/-- Bounds of the fields of a date parsed as `%d/%m/%Y`. -/
theorem parseDMY_bounds {s : String} {d m y : Nat} (h : parseDMY s = some (d, m, y)) :
    1 ≤ d ∧ d ≤ 31 ∧ 1 ≤ m ∧ m ≤ 12 ∧ 1 ≤ y ∧ y ≤ 9999 := by
  unfold parseDMY strptimeDMY at h
  split at h
  · rename_i p1 p2 p3 heq
    cases hp1 : parseNumPart p1 1 31 with
    | none => rw [hp1] at h; cases h
    | some v1 =>
      cases hp2 : parseNumPart p2 1 12 with
      | none => rw [hp1, hp2] at h; cases h
      | some v2 =>
        cases hp3 : parseYearPart p3 true with
        | none => rw [hp1, hp2, hp3] at h; cases h
        | some v3 =>
          rw [hp1, hp2, hp3] at h
          dsimp only at h
          by_cases hday : v1 ≤ daysInMonth v3 v2
          · rw [if_pos hday] at h
            injection h with h'
            injection h' with h1 h'
            injection h' with h2 h3
            subst h1; subst h2; subst h3
            obtain ⟨a1, a2⟩ := parseNumPart_some hp1
            obtain ⟨b1, b2⟩ := parseNumPart_some hp2
            obtain ⟨c1, c2⟩ := parseYearPart_some hp3
            exact ⟨a1, a2, b1, b2, c1, c2⟩
          · rw [if_neg hday] at h; cases h
  · cases h

/-- A row that parses has a sort key strictly below the empty-date key. -/
theorem sortKey_lt_of_dated {t : Txn} (hok : txnDateOk t = true) (hne : t.date ≠ "") :
    sortKey t < 100000000 := by
  unfold txnDateOk at hok
  rw [Bool.or_eq_true] at hok
  rcases hok with hok | hok
  · exact absurd (by simpa using hok) hne
  · obtain ⟨⟨d, m, y⟩, hx⟩ := Option.isSome_iff_exists.mp hok
    unfold sortKey
    rw [if_neg hne, hx]
    obtain ⟨-, h2, -, h4, -, h6⟩ := parseDMY_bounds hx
    unfold dateKeyN
    dsimp only
    omega

/-- The sort key of a row with an empty date is the `datetime.max` key. -/
theorem sortKey_empty {t : Txn} (h : t.date = "") : sortKey t = 100000000 := by
  unfold sortKey
  rw [if_pos h]

/-- Key-filter of a cons whose head has the key. -/
theorem filter_key_cons_pos (k : Nat) (a : Txn) (l : List Txn)
    (h : (sortKey a == k) = true) :
    (a :: l).filter (fun t => sortKey t == k) = a :: l.filter (fun t => sortKey t == k) :=
  List.filter_cons_of_pos h

/-- Key-filter of a cons whose head has another key. -/
theorem filter_key_cons_neg (k : Nat) (a : Txn) (l : List Txn)
    (h : ¬ (sortKey a == k) = true) :
    (a :: l).filter (fun t => sortKey t == k) = l.filter (fun t => sortKey t == k) :=
  List.filter_cons_of_neg h

/-- Filtering by one key value commutes with an ordered insertion: the new
element lands in front of the equal-key elements already present, and
elements of other keys are untouched. -/
theorem filter_orderedInsert_key (k : Nat) (a : Txn) (l : List Txn) :
    (List.orderedInsert (fun x y => sortKey x ≤ sortKey y) a l).filter
        (fun t => sortKey t == k) =
      if sortKey a == k then a :: l.filter (fun t => sortKey t == k)
      else l.filter (fun t => sortKey t == k) := by
  induction l with
  | nil =>
    by_cases hak : (sortKey a == k) = true
    · rw [if_pos hak]
      simp [List.orderedInsert, hak]
    · rw [if_neg hak]
      simp [List.orderedInsert, hak]
  | cons b t ih =>
    unfold List.orderedInsert
    by_cases hr : sortKey a ≤ sortKey b
    · rw [if_pos hr]
      by_cases hak : (sortKey a == k) = true
      · rw [if_pos hak, filter_key_cons_pos _ _ _ hak]
      · rw [if_neg hak, filter_key_cons_neg _ _ _ hak]
    · rw [if_neg hr]
      by_cases hbk : (sortKey b == k) = true
      · rw [filter_key_cons_pos _ _ _ hbk, filter_key_cons_pos _ _ _ hbk, ih]
        by_cases hak : (sortKey a == k) = true
        · exact absurd (by
            rw [eq_of_beq hak, ← eq_of_beq hbk]
            : sortKey a ≤ sortKey b) hr
        · rw [if_neg hak, if_neg hak]
      · rw [filter_key_cons_neg _ _ _ hbk, filter_key_cons_neg _ _ _ hbk, ih]

/-- Filtering by one key value is invariant under the insertion sort —
the stability statement. -/
theorem filter_insertionSort_key (k : Nat) (l : List Txn) :
    (List.insertionSort (fun x y => sortKey x ≤ sortKey y) l).filter
        (fun t => sortKey t == k) = l.filter (fun t => sortKey t == k) := by
  induction l with
  | nil => rfl
  | cons b t ih =>
    show (List.orderedInsert _ b (List.insertionSort _ t)).filter _ = _
    rw [filter_orderedInsert_key]
    by_cases hbk : (sortKey b == k) = true
    · rw [if_pos hbk, ih, filter_key_cons_pos _ _ _ hbk]
    · rw [if_neg hbk, ih, filter_key_cons_neg _ _ _ hbk]

/-- C6 (amended): when every non-empty date in the merged list parses as
`%d/%m/%Y`, the list is stably sorted by parsed date ascending with the
empty-date rows after all dated rows (rows of equal key keep their relative
order — the filter by any key value is unchanged); when any non-empty date
fails to parse, the key computation raises and the whole list is left in
its pre-sort order (such a row is *not* moved after the dated rows). -/
theorem c6_sort_behaviour (l : List Txn) :
    (¬ l.all txnDateOk = true → sortTransactions l = l) ∧
    (l.all txnDateOk = true →
      (sortTransactions l).Perm l ∧
      (sortTransactions l).Pairwise (fun a b => sortKey a ≤ sortKey b) ∧
      (∀ k, (sortTransactions l).filter (fun t => sortKey t == k) =
          l.filter (fun t => sortKey t == k)) ∧
      (sortTransactions l).Pairwise (fun a b => a.date = "" → b.date = "")) := by
  constructor
  · intro hno
    unfold sortTransactions
    rw [if_neg hno]
  · intro hall
    unfold sortTransactions
    rw [if_pos hall]
    haveI : IsTotal Txn (fun a b => sortKey a ≤ sortKey b) := ⟨fun a b => Nat.le_total _ _⟩
    haveI : IsTrans Txn (fun a b => sortKey a ≤ sortKey b) :=
      ⟨fun _ _ _ => Nat.le_trans⟩
    have hperm := List.perm_insertionSort (fun a b => sortKey a ≤ sortKey b) l
    have hsorted := List.sorted_insertionSort (fun a b => sortKey a ≤ sortKey b) l
    refine ⟨hperm, hsorted, fun k => filter_insertionSort_key k l, ?_⟩
    refine List.Pairwise.imp_of_mem ?_ hsorted
    intro a b ha hb hab hae
    by_contra hbne
    have hbok : txnDateOk b = true := by
      have hmem : b ∈ l := hperm.subset hb
      exact List.all_eq_true.mp hall b hmem
    have h1 := sortKey_lt_of_dated hbok hbne
    have h2 := sortKey_empty hae
    omega

/-- Witness for C6: the failure branch leaves a malformed-date list
untouched, and the sorting branch permutes a well-dated list. -/
theorem c6_witness :
    sortTransactions [{ date := "99/99/9999" }] = [{ date := "99/99/9999" }] ∧
    (sortTransactions [{ date := "02/01/2024" }, { date := "01/01/2024" }]).Perm
      [{ date := "02/01/2024" }, { date := "01/01/2024" }] :=
  ⟨(c6_sort_behaviour [{ date := "99/99/9999" }]).1 (by decide),
   ((c6_sort_behaviour [{ date := "02/01/2024" }, { date := "01/01/2024" }]).2 (by decide)).1⟩

/-! ## Claim C3 -/

/-- C3: `_normalize_amount`'s separator rule.  The four spec examples hold;
with both separators present the later-occurring one (the one with no
occurrence of the other after it) is kept as decimal and the other removed;
with commas only, the comma becomes the decimal point exactly when there is
a single comma followed by exactly two digits, and is stripped as a
thousands separator otherwise; every output is empty (unparseable input) or
a sign followed by digits, a decimal point and exactly two fraction
digits. -/
theorem c3_separator_negativity_format :
    (normalizeAmount "1 200,00" = "1200.00" ∧ normalizeAmount "1,200.00" = "1200.00" ∧
      normalizeAmount "100,00-" = "-100.00" ∧ normalizeAmount "(100.00)" = "-100.00") ∧
    (∀ l : List Char, l.contains ',' = true → l.contains '.' = true →
      ((∃ u v, l = u ++ '.' :: v ∧ ',' ∉ v) →
          resolveSeparators l = l.filter (fun c => c ≠ ',')) ∧
      ((∃ u v, l = u ++ ',' :: v ∧ '.' ∉ v) →
          resolveSeparators l =
            (l.filter (fun c => c ≠ '.')).map (fun c => if c = ',' then '.' else c))) ∧
    (∀ l : List Char, (∀ c ∈ l, amountChar c = true) → l.contains ',' = true →
      l.contains '.' = false →
      ((∃ p q, l = p ++ ',' :: q ∧ ',' ∉ p ∧ ',' ∉ q ∧ q.length = 2 ∧
            q.all isDigitC = true) →
          resolveSeparators l = l.map (fun c => if c = ',' then '.' else c)) ∧
      (¬(∃ p q, l = p ++ ',' :: q ∧ ',' ∉ p ∧ ',' ∉ q ∧ q.length = 2 ∧
            q.all isDigitC = true) →
          resolveSeparators l = l.filter (fun c => c ≠ ','))) ∧
    (∀ s : String, normalizeAmount s = "" ∨ ∃ (neg : Bool) (a b : Nat), b < 100 ∧
      normalizeAmount s =
        String.mk ((if neg then ['-'] else []) ++ natDigits a ++ '.' :: pad2 b)) := by
  refine ⟨by decide, ?_, ?_, ?_⟩
  · intro l hc hd
    constructor
    · rintro ⟨u, v, rfl, hv⟩
      unfold resolveSeparators
      rw [hc, hd, if_pos ⟨rfl, rfl⟩, lastSepDot_of_dot hv, if_pos rfl]
    · rintro ⟨u, v, rfl, hv⟩
      unfold resolveSeparators
      rw [hc, hd, if_pos ⟨rfl, rfl⟩, lastSepDot_of_comma hv, if_neg (by simp)]
  · intro l hall hc hd
    constructor
    · rintro ⟨p, q, rfl, hp, hq, hlen, _hdig⟩
      unfold resolveSeparators
      rw [hc, hd, if_neg (by simp), if_pos rfl]
      have hcount : (p ++ ',' :: q).count ',' = 1 := by
        rw [List.count_append]
        rw [List.count_eq_zero.mpr hp, List.count_cons]
        rw [List.count_eq_zero.mpr hq]
        simp
      have hdw : (p ++ ',' :: q).dropWhile (fun c => c ≠ ',') = ',' :: q :=
        dropWhile_until_comma hp
      rw [if_pos ⟨hcount, by rw [hdw]; exact hlen⟩]
    · intro hno
      unfold resolveSeparators
      rw [hc, hd, if_neg (by simp), if_pos rfl]
      rw [if_neg (by
        rintro ⟨h1, h2⟩
        have hmem : ',' ∈ l := List.elem_iff.mp hc
        obtain ⟨p, q, hl, hp, hdw⟩ := comma_decomp hmem
        rw [hl, List.count_append, List.count_eq_zero.mpr hp, List.count_cons] at h1
        simp at h1
        have hqn : ',' ∉ q := List.count_eq_zero.mp h1
        have hlen : q.length = 2 := by
          rw [hdw] at h2
          exact h2
        refine hno ⟨p, q, hl, hp, hqn, hlen, ?_⟩
        rw [List.all_eq_true]
        intro c hcq
        have hcl : c ∈ l := by
          rw [hl]
          exact List.mem_append.mpr (Or.inr (List.mem_cons_of_mem _ hcq))
        rcases amountChar_cases (hall c hcl) with hdg | hcm | hdt
        · exact hdg
        · exact absurd (hcm ▸ hcq) hqn
        · have h' : l.contains '.' = true := List.elem_iff.mpr (hdt ▸ hcl)
          rw [hd] at h'
          cases h')]
  · intro s
    rcases normalizeAmountL_eq s.data with h0 | ⟨q, hq⟩
    · exact Or.inl (mk_eq_empty.mpr h0)
    · obtain ⟨neg, a, b, hb, hshape⟩ := formatTwoL_shape q
      refine Or.inr ⟨neg, a, b, hb, ?_⟩
      unfold normalizeAmount
      rw [hq, hshape]

/-- Witness for C3: the separator branches applied to `"1,234.56"` (dot
later), `"1.234,56"` (comma later) and `"1,25"` (single decimal comma), and
the output-shape alternative at `"12.5"`. -/
theorem c3_witness :
    resolveSeparators ("1,234.56".data) = ("1,234.56".data).filter (fun c => c ≠ ',') ∧
    resolveSeparators ("1.234,56".data) =
      (("1.234,56".data).filter (fun c => c ≠ '.')).map (fun c => if c = ',' then '.' else c) ∧
    resolveSeparators ("1,25".data) = ("1,25".data).map (fun c => if c = ',' then '.' else c) ∧
    (normalizeAmount "12.5" = "" ∨ ∃ (neg : Bool) (a b : Nat), b < 100 ∧
      normalizeAmount "12.5" =
        String.mk ((if neg then ['-'] else []) ++ natDigits a ++ '.' :: pad2 b)) :=
  ⟨(c3_separator_negativity_format.2.1 ("1,234.56".data) (by decide) (by decide)).1
      ⟨"1,234".data, "56".data, by decide, by decide⟩,
   (c3_separator_negativity_format.2.1 ("1.234,56".data) (by decide) (by decide)).2
      ⟨"1.234".data, "56".data, by decide, by decide⟩,
   (c3_separator_negativity_format.2.2.1 ("1,25".data) (by decide) (by decide) (by decide)).1
      ⟨"1".data, "25".data, by decide, by decide, by decide, by decide, by decide⟩,
   c3_separator_negativity_format.2.2.2 "12.5"⟩

/-! ## Claim C7 -/

/-- C7 counterexample: `_normalize_amount "0.001-"` yields the non-empty
string `"-0.00"`, and normalizing that output again yields `"0.00"` — so
normalization is not idempotent on all of its non-empty outputs. -/
theorem c7_counterexample :
    normalizeAmount "0.001-" = "-0.00" ∧
    normalizeAmount (normalizeAmount "0.001-") ≠ normalizeAmount "0.001-" := by
  decide

/-- C7 (amended): `_normalize_amount` is idempotent on every non-empty output
other than `"-0.00"` (on `"-0.00"` the minus marker survives but the reparsed
value `0.00` is not positive, so the sign is dropped), and `_normalize_date`
is the identity on every rendered calendar-valid `DD/MM/YYYY` date. -/
theorem c7_idempotent_except_neg_zero :
    (∀ s : String, normalizeAmount s ≠ "" → normalizeAmount s ≠ "-0.00" →
      normalizeAmount (normalizeAmount s) = normalizeAmount s) ∧
    (∀ d m y : Nat, 1 ≤ m → m ≤ 12 → 1 ≤ d → d ≤ daysInMonth y m → 1000 ≤ y → y ≤ 9999 →
      normalizeDate (String.mk (strftimeDMY d m y)) = String.mk (strftimeDMY d m y)) := by
  constructor
  · intro s hne hneg
    rcases normalizeAmountL_eq s.data with h0 | ⟨q, hq⟩
    · exact absurd (show normalizeAmount s = "" from mk_eq_empty.mpr h0) hne
    · obtain ⟨neg, a, b, hb, hshape⟩ := formatTwoL_shape q
      have hqs : normalizeAmount s = String.mk (formatTwoL q) := by
        unfold normalizeAmount
        rw [hq]
      cases neg with
      | false =>
        have hshape' : formatTwoL q = natDigits a ++ '.' :: pad2 b := by
          simpa using hshape
        rw [hqs, hshape']
        show String.mk (normalizeAmountL (natDigits a ++ '.' :: pad2 b)) = _
        exact congrArg String.mk (normA_canon_pos a b hb)
      | true =>
        have hshape' : formatTwoL q = '-' :: (natDigits a ++ '.' :: pad2 b) := by
          simpa using hshape
        have hnz : ¬(a = 0 ∧ b = 0) := by
          rintro ⟨rfl, rfl⟩
          exact hneg (by rw [hqs, hshape']; decide)
        rw [hqs, hshape']
        show String.mk (normalizeAmountL ('-' :: (natDigits a ++ '.' :: pad2 b))) = _
        exact congrArg String.mk (normA_canon_negL a b hb hnz)
  · intro d m y hm1 hm2 hd1 hd2 hy1 hy2
    show String.mk (normalizeDateL (strftimeDMY d m y)) = _
    exact congrArg String.mk (normalizeDate_canonical hm1 hm2 hd1 hd2 hy1 hy2)

/-- Witness for C7: idempotence at the concrete spec example `"1 200,00"` and
date identity at 25 June 2024. -/
theorem c7_witness :
    normalizeAmount (normalizeAmount "1 200,00") = normalizeAmount "1 200,00" ∧
    normalizeDate (String.mk (strftimeDMY 25 6 2024)) = String.mk (strftimeDMY 25 6 2024) :=
  ⟨c7_idempotent_except_neg_zero.1 "1 200,00" (by decide) (by decide),
   c7_idempotent_except_neg_zero.2 25 6 2024 (by decide) (by decide) (by decide) (by decide)
     (by decide) (by decide)⟩

/-! ## Claim C9 -/

/-- C9 counterexample: the normalizer never title-cases descriptions (the
"Capitalize properly" comment in `_clean_description` is not implemented),
so the end-to-end scenario produces `"Payment to XYZ"`, not the claimed
`"Payment To XYZ"`. -/
theorem c9_counterexample :
    (parseTextGreedy "25/06/2024 Payment to XYZ 1 200,00 250,00" 2024).map processTransaction ≠
      [{ date := "25/06/2024", description := "Payment To XYZ", reference := "",
         debit := "", credit := "1200.00", balance := "250.00" }] := by
  decide

/-- C9 (amended): the text row parser turns the line
`"25/06/2024 Payment to XYZ 1 200,00 250,00"` into exactly the candidate
`{date: "25/06/2024", description: "Payment to XYZ", credit: "1 200,00",
balance: "250,00", debit empty}`, and normalizing that candidate yields
`{date: "25/06/2024", description: "Payment to XYZ", debit: "",
credit: "1200.00", balance: "250.00"}` (description case unchanged). -/
theorem c9_amended :
    parseTextGreedy "25/06/2024 Payment to XYZ 1 200,00 250,00" 2024 =
      [{ date := "25/06/2024", description := "Payment to XYZ", reference := "",
         debit := "", credit := "1 200,00", balance := "250,00" }] ∧
    processTransaction
        { date := "25/06/2024", description := "Payment to XYZ", reference := "",
          debit := "", credit := "1 200,00", balance := "250,00" } =
      { date := "25/06/2024", description := "Payment to XYZ", reference := "",
        debit := "", credit := "1200.00", balance := "250.00" } := by
  decide

end BankConv

